import Mathlib

/-!
Verification of the signature-extraction engine of the context_builder
repository: the JavaScript and TypeScript regex line scanners
(src/context_builder/javascript_parser.py, typescript_parser.py) and the
Python AST extractor (src/main.py), embedded shallowly in Lean.
-/

set_option maxHeartbeats 1000000
set_option maxRecDepth 4000

namespace ContextBuilder

/-! ## Python-like string primitives -/

/-- Python whitespace characters recognised by str.strip / regex \s (ASCII). -/
def pySpace (c : Char) : Bool :=
  c = ' ' || c = '\t' || c = '\n' || c = '\r' || c = '\x0b' || c = '\x0c'

/-- Drop leading whitespace, as in Python lstrip. -/
def stripL (l : List Char) : List Char := l.dropWhile pySpace

/-- One step of right stripping: c is kept if anything survived to its
right, else kept only when it is not a space itself. -/
def stripRCons (c : Char) : List Char → List Char
  | [] => if pySpace c then [] else [c]
  | h :: t => c :: h :: t

/-- Drop trailing whitespace, as in Python rstrip. -/
def stripR : List Char → List Char
  | [] => []
  | c :: rest => stripRCons c (stripR rest)

/-- Python str.strip on a character list. -/
def pstrip (l : List Char) : List Char := stripR (stripL l)

/-- Python str.strip on a string. -/
def pstripS (s : String) : String := String.mk (pstrip s.data)

/-- Python str.split(sep) for a single-character separator: splits at every
occurrence, yielding n+1 chunks for n separators. -/
def splitOn (sep : Char) : List Char → List (List Char)
  | [] => [[]]
  | c :: rest =>
    if c = sep then [] :: splitOn sep rest
    else
      match splitOn sep rest with
      | [] => [[c]]
      | h :: t => (c :: h) :: t

/-- content.split("\n") as used by both regex scanners. -/
def contentLines (content : String) : List String :=
  (splitOn '\n' content.data).map String.mk

/-! ## A small regex engine mirroring Python re.search semantics
for the patterns used by the two scanners: backtracking, leftmost
start position, greedy repetition, left-biased alternation. Repetition
only ever occurs over single character classes in those patterns, so
star and plus take a character class directly. -/

/-- Character classes occurring in the scanners' patterns. -/
inductive RC
  | word
  | space
  | anyOf (cs : List Char)
  | noneOf (cs : List Char)

/-- Membership test of a character class (\w and \s in their ASCII reading). -/
def RC.test : RC → Char → Bool
  | .word, c => c.isAlphanum || c = '_'
  | .space, c => pySpace c
  | .anyOf cs, c => cs.contains c
  | .noneOf cs, c => !(cs.contains c)

/-- Regex abstract syntax: epsilon, class, concatenation, alternation,
greedy option, greedy star/plus over a class, capturing group. -/
inductive Rx
  | eps
  | ch (c : RC)
  | cat (a b : Rx)
  | alt (a b : Rx)
  | opt (a : Rx)
  | star (c : RC)
  | more (c : RC)
  | grp (i : Nat) (a : Rx)

/-- Capture environment: group index to captured text, most recent first. -/
abbrev Caps := List (Nat × String)

def setCap (i : Nat) (s : String) (g : Caps) : Caps := (i, s) :: g

/-- match.group(i): none when the group did not participate in the match. -/
def capGet (g : Caps) (i : Nat) : Option String :=
  (g.find? (fun p => p.1 == i)).map (fun p => p.2)

/-- The text consumed between suffix s2 of s and s itself. -/
def takeDiff (s s2 : List Char) : String :=
  String.mk (s.take (s.length - s2.length))

/-- Greedy star over a character class, with backtracking: prefer consuming. -/
def starRun (c : RC) : List Char → Caps → (List Char → Caps → Option Caps) → Option Caps
  | [], g, k => k [] g
  | x :: rest, g, k =>
    if c.test x then (starRun c rest g k) <|> k (x :: rest) g
    else k (x :: rest) g

/-- Backtracking matcher in continuation style; preference order matches
Python re: concatenation left to right, alternation left first, option
present first, repetition greedy. -/
def Rx.run : Rx → List Char → Caps → (List Char → Caps → Option Caps) → Option Caps
  | .eps, s, g, k => k s g
  | .ch c, s, g, k =>
    match s with
    | [] => none
    | x :: rest => if c.test x then k rest g else none
  | .cat a b, s, g, k => a.run s g (fun s2 g2 => b.run s2 g2 k)
  | .alt a b, s, g, k => (a.run s g k) <|> (b.run s g k)
  | .opt a, s, g, k => (a.run s g k) <|> k s g
  | .star c, s, g, k => starRun c s g k
  | .more c, s, g, k =>
    match s with
    | [] => none
    | x :: rest => if c.test x then starRun c rest g k else none
  | .grp i a, s, g, k => a.run s g (fun s2 g2 => k s2 (setCap i (takeDiff s s2) g2))

/-- Attempt a match anchored at the start of s. -/
def matchAt (r : Rx) (s : List Char) : Option Caps :=
  r.run s [] (fun _ g => some g)

/-- re.search: try every start position from the left; at the first position
admitting a match, return that match's captures. -/
def rsearch (r : Rx) : List Char → Option Caps
  | [] =>
    match matchAt r [] with
    | some g => some g
    | none => none
  | x :: t =>
    match matchAt r (x :: t) with
    | some g => some g
    | none => rsearch r t

/-! ### Pattern-building helpers -/

def rlit (c : Char) : Rx := .ch (.anyOf [c])

def rseq : List Rx → Rx
  | [] => .eps
  | [r] => r
  | r :: rest => .cat r (rseq rest)

/-- A literal string of characters. -/
def rstr (s : String) : Rx := rseq (s.data.map rlit)

/-- \w+ -/
def w1 : Rx := .more .word

/-- \s* -/
def sp0 : Rx := .star .space

/-- \s+ -/
def sp1 : Rx := .more .space

/-! ## Shared parameter cleaning

Embeds JavaScriptParser._clean_js_params and
TypeScriptParser._clean_typescript_params. The splitting loop is shared:
iterate characters keeping a parenthesis counter (a Python int, so it can
go negative), splitting at commas seen while the counter is zero; chunks
are stripped when appended; the trailing chunk is kept only if nonblank. -/

/-- The character loop of both cleaners: state is the remaining input, the
current parenthesis count, the chunk built so far, and the accumulated
chunk list. -/
def splitLoop : List Char → Int → List Char → List (List Char) → List (List Char)
  | [], _, current, acc =>
    if pstrip current = [] then acc else acc ++ [pstrip current]
  | c :: rest, pc, current, acc =>
    if c = '(' then splitLoop rest (pc + 1) (current ++ [c]) acc
    else if c = ')' then splitLoop rest (pc - 1) (current ++ [c]) acc
    else if c = ',' ∧ pc = 0 then splitLoop rest pc [] (acc ++ [pstrip current])
    else splitLoop rest pc (current ++ [c]) acc

/-- param.split("=", 1)[0]: the text before the first '='. -/
def eqHead (l : List Char) : List Char := l.takeWhile (fun c => c ≠ '=')

/-- Per-chunk cleaning of the JavaScript cleaner: strip a default value
introduced by '=', then strip whitespace. -/
def jsCleanChunk (p : List Char) : List Char :=
  pstrip (if '=' ∈ p then pstrip (eqHead p) else p)

/-- Per-chunk cleaning of the TypeScript cleaner: strip a default value,
then normalise a name: Type annotation when a colon is present. -/
def tsCleanChunk (p : List Char) : List Char :=
  let p1 := if '=' ∈ p then pstrip (eqHead p) else p
  if ':' ∈ p1 then
    let nm := p1.takeWhile (fun c => c ≠ ':')
    let ty := (p1.dropWhile (fun c => c ≠ ':')).tail
    pstrip nm ++ ':' :: ' ' :: pstrip ty
  else pstrip p1

/-- ", ".join on character lists. -/
def sepJoin : List (List Char) → List Char
  | [] => []
  | [t] => t
  | t :: rest => t ++ ',' :: ' ' :: sepJoin rest

/-- JavaScriptParser._clean_js_params on a character list. -/
def cleanJsParamsL (l : List Char) : List Char :=
  if l = [] then []
  else sepJoin ((splitLoop l 0 [] []).map jsCleanChunk)

/-- TypeScriptParser._clean_typescript_params on a character list. -/
def cleanTsParamsL (l : List Char) : List Char :=
  if l = [] then []
  else sepJoin ((splitLoop l 0 [] []).map tsCleanChunk)

/-- JavaScriptParser._clean_js_params. -/
def cleanJsParams (params : String) : String :=
  String.mk (cleanJsParamsL params.data)

/-- TypeScriptParser._clean_typescript_params. -/
def cleanTsParams (params : String) : String :=
  String.mk (cleanTsParamsL params.data)

/-! ## JavaScript scanner (JavaScriptParser._parse_with_regex) -/

/-- export\s+default\s+function\s*(\w+)?\s*\(([^)]*)\) -/
def jsF0 : Rx :=
  rseq [rstr "export", sp1, rstr "default", sp1, rstr "function", sp0,
    .opt (.grp 1 w1), sp0, rlit '(', .grp 2 (.star (.noneOf [')'])), rlit ')']

/-- export\s+(?:async\s+)?function\s+(\w+)\s*\(([^)]*)\) -/
def jsF1 : Rx :=
  rseq [rstr "export", sp1, .opt (rseq [rstr "async", sp1]), rstr "function", sp1,
    .grp 1 w1, sp0, rlit '(', .grp 2 (.star (.noneOf [')'])), rlit ')']

/-- (?:async\s+)?function\s+(\w+)\s*\(([^)]*)\) -/
def jsF2 : Rx :=
  rseq [.opt (rseq [rstr "async", sp1]), rstr "function", sp1,
    .grp 1 w1, sp0, rlit '(', .grp 2 (.star (.noneOf [')'])), rlit ')']

/-- (?:export\s+)?(?:const|let|var)\s+(\w+)\s*=\s*(?:async\s+)?\(([^)]*)\)\s*=> -/
def jsF3 : Rx :=
  rseq [.opt (rseq [rstr "export", sp1]),
    .alt (rstr "const") (.alt (rstr "let") (rstr "var")), sp1,
    .grp 1 w1, sp0, rlit '=', sp0, .opt (rseq [rstr "async", sp1]),
    rlit '(', .grp 2 (.star (.noneOf [')'])), rlit ')', sp0, rstr "=>"]

/-- export\s+default\s*(?:async\s+)?\(([^)]*)\)\s*=> -/
def jsF4 : Rx :=
  rseq [rstr "export", sp1, rstr "default", sp0, .opt (rseq [rstr "async", sp1]),
    rlit '(', .grp 1 (.star (.noneOf [')'])), rlit ')', sp0, rstr "=>"]

/-- (\w+)\s*\(([^)]*)\)\s*{ -/
def jsF5 : Rx :=
  rseq [.grp 1 w1, sp0, rlit '(', .grp 2 (.star (.noneOf [')'])), rlit ')', sp0,
    rlit '\x7b']

/-- The ordered JavaScript function pattern list. -/
def jsFuncPatterns : List Rx := [jsF0, jsF1, jsF2, jsF3, jsF4, jsF5]

/-- export\s+default\s+(\w+)\s*; -/
def jsDefaultExport : Rx :=
  rseq [rstr "export", sp1, rstr "default", sp1, .grp 1 w1, sp0, rlit ';']

/-- export\s+default\s+class\s+(\w+)? -/
def jsC0 : Rx :=
  rseq [rstr "export", sp1, rstr "default", sp1, rstr "class", sp1, .opt (.grp 1 w1)]

/-- export\s+class\s+(\w+) -/
def jsC1 : Rx := rseq [rstr "export", sp1, rstr "class", sp1, .grp 1 w1]

/-- class\s+(\w+) -/
def jsC2 : Rx := rseq [rstr "class", sp1, .grp 1 w1]

/-- The ordered JavaScript class pattern list. -/
def jsClassPatterns : List Rx := [jsC0, jsC1, jsC2]

/-- Name and raw parameter text taken from a JavaScript function match;
pattern index 4 (anonymous default-exported arrow) takes the parameters
from group 1, every other pattern takes the name from group 1 (falsy to
"<anonymous>") and the parameters from group 2. -/
def jsFuncFromMatch (idx : Nat) (g : Caps) : String × String :=
  if idx = 4 then ("<anonymous>", pstripS ((capGet g 1).getD ""))
  else
    let nm := (capGet g 1).getD ""
    ((if nm = "" then "<anonymous>" else nm), pstripS ((capGet g 2).getD ""))

/-- First-match-wins over the function pattern list; on a match renders the
function record line. -/
def jsFirstFuncAux (rel : String) (i : Nat) : Nat → List Rx → List Char → Option String
  | _, [], _ => none
  | idx, p :: rest, line =>
    match rsearch p line with
    | some g =>
      let nmps := jsFuncFromMatch idx g
      some (rel ++ ":" ++ Nat.repr i ++ ": " ++ nmps.1 ++ "(" ++ cleanJsParams nmps.2 ++ ")")
    | none => jsFirstFuncAux rel i (idx + 1) rest line

def jsFirstFunc (rel : String) (i : Nat) (line : List Char) : Option String :=
  jsFirstFuncAux rel i 0 jsFuncPatterns line

/-- First-match-wins over a class pattern list, returning the class name
(group 1, falsy to "<anonymous>"). -/
def firstClassName : List Rx → List Char → Option String
  | [], _ => none
  | p :: rest, line =>
    match rsearch p line with
    | some g =>
      some (match capGet g 1 with
        | some nm => if nm = "" then "<anonymous>" else nm
        | none => "<anonymous>")
    | none => firstClassName rest line

/-- Per-line processing of the JavaScript scanner: skip blank lines; try
function patterns first and stop there on a match; otherwise try the bare
default-export pattern; otherwise try class patterns. -/
def jsLine (rel : String) (i : Nat) (raw : String) : List String × List String :=
  let line := pstrip raw.data
  if line = [] then ([], [])
  else
    match jsFirstFunc rel i line with
    | some record => ([record], [])
    | none =>
      match rsearch jsDefaultExport line with
      | some g =>
        ([rel ++ ":" ++ Nat.repr i ++ ": export default " ++ (capGet g 1).getD ""], [])
      | none =>
        match firstClassName jsClassPatterns line with
        | some nm => ([], [rel ++ ":" ++ Nat.repr i ++ ": class " ++ nm])
        | none => ([], [])

/-- Scan a list of lines with 1-based numbering, concatenating the per-line
results into the two output sequences. -/
def scanLines (f : Nat → String → List String × List String) : Nat → List String → List String × List String
  | _, [] => ([], [])
  | i, l :: rest =>
    let hd := f i l
    let tl := scanLines f (i + 1) rest
    (hd.1 ++ tl.1, hd.2 ++ tl.2)

/-- JavaScriptParser._parse_with_regex on file content, with rel the file
name label. -/
def jsParseContent (content : String) (rel : String) : List String × List String :=
  scanLines (jsLine rel) 1 (contentLines content)

/-! ## TypeScript scanner (TypeScriptParser._parse_with_regex) -/

/-- (?:export\s+)?(?:async\s+)?function\s+(\w+)\s*\(([^)]*)\)(?:\s*:\s*([^{]+))? -/
def tsF0 : Rx :=
  rseq [.opt (rseq [rstr "export", sp1]), .opt (rseq [rstr "async", sp1]),
    rstr "function", sp1, .grp 1 w1, sp0, rlit '(', .grp 2 (.star (.noneOf [')'])),
    rlit ')', .opt (rseq [sp0, rlit ':', sp0, .grp 3 (.more (.noneOf ['\x7b']))])]

/-- (?:export\s+)?(?:const|let|var)\s+(\w+)\s*[:=]\s*(?:async\s+)?\(([^)]*)\)(?:\s*=>\s*[^{]+)?
(two capture groups only, so its records always carry return type "any"). -/
def tsF1 : Rx :=
  rseq [.opt (rseq [rstr "export", sp1]),
    .alt (rstr "const") (.alt (rstr "let") (rstr "var")), sp1,
    .grp 1 w1, sp0, .ch (.anyOf [':', '=']), sp0, .opt (rseq [rstr "async", sp1]),
    rlit '(', .grp 2 (.star (.noneOf [')'])), rlit ')',
    .opt (rseq [sp0, rstr "=>", sp0, .more (.noneOf ['\x7b'])])]

/-- (\w+)\s*\(([^)]*)\)(?:\s*:\s*([^{]+))? -/
def tsF2 : Rx :=
  rseq [.grp 1 w1, sp0, rlit '(', .grp 2 (.star (.noneOf [')'])),
    rlit ')', .opt (rseq [sp0, rlit ':', sp0, .grp 3 (.more (.noneOf ['\x7b']))])]

/-- The ordered TypeScript function pattern list. -/
def tsFuncPatterns : List Rx := [tsF0, tsF1, tsF2]

/-- (?:export\s+)?(?:abstract\s+)?class\s+(\w+)(?:\s+extends\s+(\w+))?(?:\s+implements\s+([^{]+))? -/
def tsC0 : Rx :=
  rseq [.opt (rseq [rstr "export", sp1]), .opt (rseq [rstr "abstract", sp1]),
    rstr "class", sp1, .grp 1 w1,
    .opt (rseq [sp1, rstr "extends", sp1, .grp 2 w1]),
    .opt (rseq [sp1, rstr "implements", sp1, .grp 3 (.more (.noneOf ['\x7b']))])]

/-- (?:export\s+)?interface\s+(\w+)(?:\s+extends\s+([^{]+))? -/
def tsC1 : Rx :=
  rseq [.opt (rseq [rstr "export", sp1]), rstr "interface", sp1, .grp 1 w1,
    .opt (rseq [sp1, rstr "extends", sp1, .grp 2 (.more (.noneOf ['\x7b']))])]

/-- (?:export\s+)?type\s+(\w+)\s*=\s*([^;]+) -/
def tsC2 : Rx :=
  rseq [.opt (rseq [rstr "export", sp1]), rstr "type", sp1, .grp 1 w1, sp0,
    rlit '=', sp0, .grp 2 (.more (.noneOf [';']))]

/-- The ordered TypeScript class pattern list. -/
def tsClassPatterns : List Rx := [tsC0, tsC1, tsC2]

/-- First TypeScript function-pattern match of a line: name (group 1),
stripped raw parameter text (group 2) and the raw return-type capture
(group 3 where the pattern has one). -/
def tsFuncOfLine : List Rx → List Char → Option (String × String × Option String)
  | [], _ => none
  | p :: rest, line =>
    match rsearch p line with
    | some g => some ((capGet g 1).getD "", pstripS ((capGet g 2).getD ""), capGet g 3)
    | none => tsFuncOfLine rest line

/-- return_type = match.group(3).strip() if ... and match.group(3) else "any". -/
def tsRetOf : Option String → String
  | some t => if t = "" then "any" else pstripS t
  | none => "any"

/-- First TypeScript class-pattern match of a line, rendered as the
class_def text: "class Name" plus optional extends/implements clauses
(groups 2 and 3 when captured and truthy). -/
def tsClassOfLine : List Rx → List Char → Option String
  | [], _ => none
  | p :: rest, line =>
    match rsearch p line with
    | some g =>
      let nm := (capGet g 1).getD ""
      let ext := (capGet g 2).getD ""
      let impl := (capGet g 3).getD ""
      some ("class " ++ nm
        ++ (if ext = "" then "" else " extends " ++ ext)
        ++ (if impl = "" then "" else " implements " ++ impl))
    | none => tsClassOfLine rest line

/-- The function-record half of a TypeScript line: parameters are cleaned
only when nonempty, and the return type is appended. -/
def tsLineFuncs (rel : String) (i : Nat) (line : List Char) : List String :=
  match tsFuncOfLine tsFuncPatterns line with
  | some (nm, ps, g3) =>
    [rel ++ ":" ++ Nat.repr i ++ ": " ++ nm ++ "("
      ++ (if ps = "" then ps else cleanTsParams ps) ++ ") -> " ++ tsRetOf g3]
  | none => []

/-- The class-record half of a TypeScript line, computed from the class
patterns alone. -/
def tsLineClasses (rel : String) (i : Nat) (line : List Char) : List String :=
  match tsClassOfLine tsClassPatterns line with
  | some cd => [rel ++ ":" ++ Nat.repr i ++ ": " ++ cd]
  | none => []

/-- Per-line processing of the TypeScript scanner: the stripped line is
checked against the function patterns and, independently, against the
class patterns. -/
def tsLine (rel : String) (i : Nat) (raw : String) : List String × List String :=
  let line := pstrip raw.data
  (tsLineFuncs rel i line, tsLineClasses rel i line)

/-- TypeScriptParser._parse_with_regex on file content. -/
def tsParseContent (content : String) (rel : String) : List String × List String :=
  scanLines (tsLine rel) 1 (contentLines content)

/-! ## Python AST extractor (src/main.py)

The Python syntax tree is embedded with exactly the structure the
extractor inspects: function, async-function and class definitions with
their bodies, assignments with their targets and type comments, and a
catch-all statement carrying its nested statements. Expressions appear
only where the code reads them: annotations, bases and returns as their
ast.unparse text, assignment targets and decorators as shapes. -/

/-- An assignment target: a bare name, an attribute access, or anything
else. -/
inductive PyTgt
  | name (id : String)
  | attr (base : PyTgt) (field : String)
  | otherTgt

/-- A decorator: a bare name, an attribute access (only its attr is
inspected), or anything else. -/
inductive PyDec
  | name (id : String)
  | attrDec (field : String)
  | otherDec

/-- One formal argument with its optional unparsed type. -/
structure PyArg where
  arg : String
  tyAnn : Option String
deriving Repr

/-- The ast.arguments record: positional-only, positional-or-keyword,
*vararg, keyword-only and **kwarg components. -/
structure PyArgs where
  posonly : List PyArg
  args : List PyArg
  vararg : Option String
  kwonly : List PyArg
  kwarg : Option String
deriving Repr

/-- Statements, with bodies where the extractor walks into them. -/
inductive PyStmt
  | functionDef (name : String) (argsF : PyArgs) (body : List PyStmt)
      (decorators : List PyDec) (returns : Option String) (lineno : Nat)
  | asyncFunctionDef (name : String) (argsF : PyArgs) (body : List PyStmt)
      (decorators : List PyDec) (returns : Option String) (lineno : Nat)
  | classDef (name : String) (bases : List String) (body : List PyStmt) (lineno : Nat)
  | assign (targets : List PyTgt) (typeComment : Option String)
  | annAssign (target : PyTgt) (tyAnn : String) (typeComment : Option String)
  | otherStmt (sub : List PyStmt)

/-- The child statements yielded by ast.iter_child_nodes, restricted to
statements (definition nodes never occur inside expressions). -/
def PyStmt.children : PyStmt → List PyStmt
  | .functionDef _ _ body _ _ _ => body
  | .asyncFunctionDef _ _ body _ _ _ => body
  | .classDef _ _ body _ => body
  | .assign _ _ => []
  | .annAssign _ _ _ => []
  | .otherStmt sub => sub

mutual

/-- Number of statement nodes in a statement's subtree, at least one. -/
def stmtSize : PyStmt → Nat
  | .functionDef _ _ body _ _ _ => 1 + bodySize body
  | .asyncFunctionDef _ _ body _ _ _ => 1 + bodySize body
  | .classDef _ _ body _ => 1 + bodySize body
  | .assign _ _ => 1
  | .annAssign _ _ _ => 1
  | .otherStmt sub => 1 + bodySize sub

/-- Number of statement nodes in a list of subtrees. -/
def bodySize : List PyStmt → Nat
  | [] => 0
  | s :: rest => stmtSize s + bodySize rest

end

/-- ast.walk: breadth-first traversal using a FIFO queue seeded with the
start nodes; each dequeued node is yielded and its children enqueued. -/
def walk (q : List PyStmt) : List PyStmt :=
  match q with
  | [] => []
  | s :: rest => s :: walk (rest ++ s.children)
termination_by bodySize q
decreasing_by
  have happ : ∀ a b : List PyStmt, bodySize (a ++ b) = bodySize a + bodySize b := by
    intro a b
    induction a with
    | nil => simp [bodySize]
    | cons x xs ih => simp [bodySize, ih]; omega
  have hsz : stmtSize s = 1 + bodySize s.children := by
    cases s <;> simp [stmtSize, PyStmt.children, bodySize]
  simp [bodySize, happ, hsz]
  omega

/-- _type_of_assign: the unparsed annotation of an annotated assignment,
else a truthy type comment, else "Unknown". -/
def typeOfAssign : PyStmt → String
  | .annAssign _ ann _ => ann
  | .assign _ tc =>
    match tc with
    | some t => if t = "" then "Unknown" else t
    | none => "Unknown"
  | _ => "Unknown"

/-- The targets of an assignment or annotated assignment. -/
def targetsOf : PyStmt → List PyTgt
  | .assign tgts _ => tgts
  | .annAssign t _ _ => [t]
  | _ => []

/-- _collect_class_attrs: simple-name targets of (annotated) assignments
directly in the class body, paired with their resolved type. -/
def collectClassAttrs (body : List PyStmt) : List (String × String) :=
  body.flatMap (fun stmt =>
    (targetsOf stmt).filterMap (fun t =>
      match t with
      | .name id => some (id, typeOfAssign stmt)
      | _ => none))

/-- _collect_instance_attrs: inside methods named __init__ (plain
FunctionDef only), every walked assignment whose target is an attribute
of the name self. -/
def collectInstanceAttrs (body : List PyStmt) : List (String × String) :=
  body.flatMap (fun stmt =>
    match stmt with
    | .functionDef nm a fbody d r ln =>
      if nm = "__init__" then
        (walk [PyStmt.functionDef nm a fbody d r ln]).flatMap (fun node =>
          (targetsOf node).filterMap (fun t =>
            match t with
            | .attr (.name b) fieldName =>
              if b = "self" then some (fieldName, typeOfAssign node) else none
            | _ => none))
      else []
    | _ => [])

/-- A decorator recognised by _collect_properties. -/
def isPropertyDec : PyDec → Bool
  | .name id => id = "property"
  | .attrDec f => f = "property"
  | .otherDec => false

/-- _collect_properties: one entry per property-decorated plain method
decorator, with the unparsed return annotation or "Unknown". -/
def collectProperties (body : List PyStmt) : List (String × String) :=
  body.flatMap (fun stmt =>
    match stmt with
    | .functionDef nm _ _ decs ret _ =>
      decs.filterMap (fun d =>
        if isPropertyDec d then some (nm, ret.getD "Unknown") else none)
    | _ => [])

/-- Lexicographic order on character lists, as Python compares strings. -/
def lexLe : List Char → List Char → Bool
  | [], _ => true
  | _ :: _, [] => false
  | x :: xs, y :: ys => if x = y then lexLe xs ys else decide (x < y)

/-- Python tuple comparison on (name, type) pairs. -/
def pairLe (a b : String × String) : Bool :=
  if a.1 = b.1 then lexLe a.2.data b.2.data else lexLe a.1.data b.1.data

/-- Insert into a sorted list, preserving sortedness. -/
def insertPair (x : String × String) : List (String × String) → List (String × String)
  | [] => [x]
  | y :: ys => if pairLe x y then x :: y :: ys else y :: insertPair x ys

/-- Python sorted() on a list of (name, type) pairs: pairLe is a total
order, so insertion sort produces the same list as Python timsort. -/
def sortPairs (l : List (String × String)) : List (String × String) :=
  l.foldr insertPair []

/-- Render "n1 -> t1, n2 -> t2" as in the attribute summary lines. -/
def renderPairs (l : List (String × String)) : String :=
  String.intercalate ", " (l.map (fun p => p.1 ++ " -> " ++ p.2))

/-- Render one formal parameter: "name: ann" with an annotation, else the
bare name. -/
def renderArg (a : PyArg) : String :=
  match a.tyAnn with
  | some t => a.arg ++ ": " ++ t
  | none => a.arg

/-- The rendered parameter list: node.args.args, then *vararg, then
**kwarg; positional-only and keyword-only parameters are not read. -/
def renderArgList (ar : PyArgs) : List String :=
  ar.args.map renderArg
    ++ (match ar.vararg with | some v => ["*" ++ v] | none => [])
    ++ (match ar.kwarg with | some k => ["**" ++ k] | none => [])

/-- One function-signature line of the tree-based extractor. -/
def renderFunc (rel : String) (ln : Nat) (nm : String) (ar : PyArgs)
    (ret : Option String) : String :=
  rel ++ ":" ++ Nat.repr ln ++ ": " ++ nm ++ "("
    ++ String.intercalate ", " (renderArgList ar) ++ ") -> " ++ ret.getD "Unknown"

/-- The indent marker of the attribute summary lines. -/
def bullet : String := "    • "

/-- The class header line: "rel:line: class Name" plus parenthesised bases
when present. -/
def classHeader (rel : String) (ln : Nat) (nm : String) (bases : List String) : String :=
  rel ++ ":" ++ Nat.repr ln ++ ": class " ++ nm
    ++ (if bases = [] then "" else "(" ++ String.intercalate ", " bases ++ ")")

/-- All class lines appended for one class node: the header, then one
summary line per nonempty attribute/property collection; attributes are
sorted, properties keep declaration order. -/
def classLinesOf (rel : String) (ln : Nat) (nm : String) (bases : List String)
    (body : List PyStmt) : List String :=
  let ca := collectClassAttrs body
  let ia := collectInstanceAttrs body
  let pr := collectProperties body
  [classHeader rel ln nm bases]
    ++ (if ca = [] then [] else [bullet ++ "class_attrs: " ++ renderPairs (sortPairs ca)])
    ++ (if ia = [] then [] else [bullet ++ "instance_attrs: " ++ renderPairs (sortPairs ia)])
    ++ (if pr = [] then [] else [bullet ++ "properties: " ++ renderPairs pr])

/-- The two lists contributed by one walked node. -/
def pyProcessNode (rel : String) : PyStmt → List String × List String
  | .functionDef nm a _ _ ret ln => ([renderFunc rel ln nm a ret], [])
  | .asyncFunctionDef nm a _ _ ret ln => ([renderFunc rel ln nm a ret], [])
  | .classDef nm bases body ln => ([], classLinesOf rel ln nm bases body)
  | _ => ([], [])

/-- The loop of extract_from_file over ast.walk(tree) for a parsed module
body, accumulating function lines and class lines. -/
def pyExtract (rel : String) (moduleBody : List PyStmt) : List String × List String :=
  ((walk moduleBody).flatMap (fun s => (pyProcessNode rel s).1),
   (walk moduleBody).flatMap (fun s => (pyProcessNode rel s).2))

/-! ## Single-file extraction entry points with the error behaviour of the
source: reading a file either yields its decoded text (errors="ignore"
makes decoding total) or fails with an OS error. -/

/-- The outcome of file_path.read_text. -/
inductive ReadResult
  | ok (content : String)
  | err (msg : String)

/-- JavaScriptParser.parse_file: any exception, including a read failure,
is caught and turned into two empty lists. -/
def jsParseFile (r : ReadResult) (name : String) : List String × List String :=
  match r with
  | .ok content => jsParseContent content name
  | .err _ => ([], [])

/-- TypeScriptParser.parse_file: identical catch-all error policy. -/
def tsParseFile (r : ReadResult) (name : String) : List String × List String :=
  match r with
  | .ok content => tsParseContent content name
  | .err _ => ([], [])

/-- extract_from_file of src/main.py: ast.parse is the external CPython
parser, passed as a function returning none on a syntax error. Only
SyntaxError is caught, so a failed read propagates its exception. -/
def extractFromFile (r : ReadResult) (parse : String → Option (List PyStmt))
    (rel : String) : Except String (List String × List String) :=
  match r with
  | .err e => .error e
  | .ok content =>
    match parse content with
    | none => .ok ([], [])
    | some m => .ok (pyExtract rel m)

/-! ## Specification-side definitions, following the words of the spec
to compare against the definitions taken from the source. -/

/-- A pre-order (depth-first) walk of the syntax tree, as the spec's
ordering clause describes it: each node before its descendants,
descendants before later siblings. -/
def preorder (q : List PyStmt) : List PyStmt :=
  match q with
  | [] => []
  | s :: rest => s :: (preorder s.children ++ preorder rest)
termination_by bodySize q
decreasing_by
  all_goals (
    have hsz : stmtSize s = 1 + bodySize s.children := by
      cases s <;> simp [stmtSize, PyStmt.children, bodySize]
    simp [bodySize, hsz] <;> omega)

/-- Positional description of the cleaners' split: chunks separated at
exactly the commas seen at parenthesis depth zero, the depth tracked
character by character. -/
def topSplitAux : List Char → Int → List (List Char)
  | [], _ => [[]]
  | c :: rest, d =>
    if c = ',' ∧ d = 0 then [] :: topSplitAux rest d
    else
      let d2 : Int := if c = '(' then d + 1 else if c = ')' then d - 1 else d
      match topSplitAux rest d2 with
      | [] => [[c]]
      | h :: t => (c :: h) :: t

/-- Strip every chunk; the last is kept only when nonblank, as the loop of
the cleaners keeps its trailing chunk only when current.strip() is truthy. -/
def stripKeep : List (List Char) → List (List Char)
  | [] => []
  | [c] => if pstrip c = [] then [] else [pstrip c]
  | c :: rest => pstrip c :: stripKeep rest

/-- Prepend pending text to the first chunk of a split. -/
def consHead (cur : List Char) : List (List Char) → List (List Char)
  | [] => [cur]
  | h :: t => (cur ++ h) :: t

/-- A comment line in the JavaScript/TypeScript sense: its stripped text
starts with //. -/
def specIsCommentJs (l : String) : Bool :=
  match pstrip l.data with
  | '/' :: '/' :: _ => true
  | _ => false

/-- Recogniser for walked function-definition nodes. -/
def isFuncNode : PyStmt → Bool
  | .functionDef _ _ _ _ _ _ => true
  | .asyncFunctionDef _ _ _ _ _ _ => true
  | _ => false

/-- Recogniser for walked class-definition nodes. -/
def isClassNode : PyStmt → Bool
  | .classDef _ _ _ _ => true
  | _ => false

mutual

/-- Number of nodes satisfying p in one statement subtree. -/
def stmtCount (p : PyStmt → Bool) : PyStmt → Nat
  | .functionDef n a body d r ln =>
    (if p (.functionDef n a body d r ln) then 1 else 0) + bodyCount p body
  | .asyncFunctionDef n a body d r ln =>
    (if p (.asyncFunctionDef n a body d r ln) then 1 else 0) + bodyCount p body
  | .classDef n b body ln =>
    (if p (.classDef n b body ln) then 1 else 0) + bodyCount p body
  | .assign t tc => if p (.assign t tc) then 1 else 0
  | .annAssign t a tc => if p (.annAssign t a tc) then 1 else 0
  | .otherStmt sub => (if p (.otherStmt sub) then 1 else 0) + bodyCount p sub

/-- Number of nodes satisfying p in a list of subtrees. -/
def bodyCount (p : PyStmt → Bool) : List PyStmt → Nat
  | [] => 0
  | s :: rest => stmtCount p s + bodyCount p rest

end

/-- The function record contributed by a node, when it is a function or
async-function definition. -/
def funcRenderOf (rel : String) : PyStmt → Option String
  | .functionDef nm a _ _ ret ln => some (renderFunc rel ln nm a ret)
  | .asyncFunctionDef nm a _ _ ret ln => some (renderFunc rel ln nm a ret)
  | _ => none

/-- The group of class lines contributed by a node, when it is a class
definition. -/
def classGroupOf (rel : String) : PyStmt → Option (List String)
  | .classDef nm bases body ln => some (classLinesOf rel ln nm bases body)
  | _ => none

/-- An empty formal-argument record. -/
def noArgsD : PyArgs := ⟨[], [], none, [], none⟩

/-- The module used against the ordering claim: def a at line 1 containing
nested def b at line 2, then def c at line 3. -/
def cxModule : List PyStmt :=
  [.functionDef "a" noArgsD [.functionDef "b" noArgsD [] [] none 2] [] none 1,
   .functionDef "c" noArgsD [] [] none 3]

/-! ## Lemmas about the statement tree -/

theorem bodySize_append (a b : List PyStmt) :
    bodySize (a ++ b) = bodySize a + bodySize b := by
  induction a with
  | nil => simp [bodySize]
  | cons s rest ih => simp [bodySize, ih]; omega

theorem stmtSize_eq (s : PyStmt) : stmtSize s = 1 + bodySize s.children := by
  cases s <;> simp [stmtSize, PyStmt.children, bodySize]

theorem walk_nil : walk [] = [] := by
  simp [walk]

theorem walk_cons (s : PyStmt) (rest : List PyStmt) :
    walk (s :: rest) = s :: walk (rest ++ s.children) := by
  rw [walk]

/-! ## Lemmas about stripping -/

theorem dropWhile_idem (p : Char → Bool) (l : List Char) :
    (l.dropWhile p).dropWhile p = l.dropWhile p := by
  induction l with
  | nil => rfl
  | cons c rest ih =>
    by_cases h : p c
    · simp [List.dropWhile_cons, h, ih]
    · simp [List.dropWhile_cons, h]

theorem stripL_idem (l : List Char) : stripL (stripL l) = stripL l :=
  dropWhile_idem pySpace l

theorem stripR_idem (l : List Char) : stripR (stripR l) = stripR l := by
  induction l with
  | nil => rfl
  | cons c rest ih =>
    cases hr : stripR rest with
    | nil =>
      by_cases h : pySpace c
      · simp [stripR, stripRCons, hr, h]
      · simp [stripR, stripRCons, hr, h]
    | cons x t =>
      rw [hr] at ih
      have e1 : stripR (c :: rest) = c :: x :: t := by
        show stripRCons c (stripR rest) = c :: x :: t
        rw [hr]
        rfl
      rw [e1]
      show stripRCons c (stripR (x :: t)) = c :: x :: t
      rw [ih]
      rfl

theorem stripL_cons_of {c : Char} (hc : pySpace c = false) (l : List Char) :
    stripL (c :: l) = c :: l := by
  simp [stripL, List.dropWhile_cons, hc]

theorem stripL_cons_elim {c : Char} {l : List Char} (h : stripL (c :: l) = c :: l) :
    pySpace c = false := by
  have := (List.dropWhile_eq_self_iff).mp h (by simp)
  simpa using this

theorem stripL_stripR_of (m : List Char) (hm : stripL m = m) :
    stripL (stripR m) = stripR m := by
  cases m with
  | nil => rfl
  | cons c rest =>
    have hc : pySpace c = false := stripL_cons_elim hm
    cases hr : stripR rest with
    | nil => simp [stripR, stripRCons, hr, hc, stripL, List.dropWhile_cons]
    | cons y t => simp [stripR, stripRCons, hr, stripL, List.dropWhile_cons, hc]

theorem stripL_pstrip (l : List Char) : stripL (pstrip l) = pstrip l :=
  stripL_stripR_of (stripL l) (stripL_idem l)

theorem stripR_pstrip (l : List Char) : stripR (pstrip l) = pstrip l :=
  stripR_idem (stripL l)

theorem pstrip_idem (l : List Char) : pstrip (pstrip l) = pstrip l := by
  unfold pstrip
  rw [stripL_stripR_of (stripL l) (stripL_idem l), stripR_idem]

theorem pstrip_cons_space {c : Char} (hc : pySpace c = true) (l : List Char) :
    pstrip (c :: l) = pstrip l := by
  simp [pstrip, stripL, List.dropWhile_cons, hc]

theorem mem_stripL {x : Char} {l : List Char} (h : x ∈ stripL l) : x ∈ l := by
  induction l with
  | nil => simpa [stripL] using h
  | cons c rest ih =>
    by_cases hc : pySpace c
    · have : x ∈ stripL rest := by simpa [stripL, List.dropWhile_cons, hc] using h
      exact List.mem_cons_of_mem c (ih this)
    · simpa [stripL, List.dropWhile_cons, hc] using h

theorem mem_stripR {x : Char} {l : List Char} (h : x ∈ stripR l) : x ∈ l := by
  induction l with
  | nil => simpa [stripR] using h
  | cons c rest ih =>
    cases hr : stripR rest with
    | nil =>
      by_cases hc : pySpace c
      · simp [stripR, stripRCons, hr, hc] at h
      · simp [stripR, stripRCons, hr, hc] at h
        simp [h]
    | cons y t =>
      simp [stripR, stripRCons, hr] at h
      rcases h with h1 | h2
      · simp [h1]
      · have : x ∈ stripR rest := by rw [hr]; simpa using h2
        exact List.mem_cons_of_mem c (ih this)

theorem mem_pstrip {x : Char} {l : List Char} (h : x ∈ pstrip l) : x ∈ l :=
  mem_stripL (mem_stripR h)

theorem mem_stripL_of {x : Char} (hx : pySpace x = false) :
    ∀ {l : List Char}, x ∈ l → x ∈ stripL l := by
  intro l
  induction l with
  | nil => intro h; simpa using h
  | cons c rest ih =>
    intro h
    by_cases hc : pySpace c
    · rcases List.mem_cons.mp h with h1 | h2
      · rw [h1] at hx; rw [hx] at hc; simp at hc
      · simpa [stripL, List.dropWhile_cons, hc] using ih h2
    · simpa [stripL, List.dropWhile_cons, hc] using h

theorem mem_stripR_of {x : Char} (hx : pySpace x = false) :
    ∀ {l : List Char}, x ∈ l → x ∈ stripR l := by
  intro l
  induction l with
  | nil => intro h; simpa using h
  | cons c rest ih =>
    intro h
    rcases List.mem_cons.mp h with h1 | h2
    · cases hr : stripR rest with
      | nil => subst h1; simp [stripR, stripRCons, hr, hx]
      | cons y t => subst h1; simp [stripR, stripRCons, hr]
    · have hm : x ∈ stripR rest := ih h2
      cases hr : stripR rest with
      | nil => rw [hr] at hm; simp at hm
      | cons y t => rw [hr] at hm; simp [stripR, stripRCons, hr, List.mem_cons]; right; simpa using hm

theorem mem_pstrip_of {x : Char} (hx : pySpace x = false) {l : List Char}
    (h : x ∈ l) : x ∈ pstrip l :=
  mem_stripR_of hx (mem_stripL_of hx h)

theorem stripR_ne_nil_of_mem {x : Char} {l : List Char} (hx : pySpace x = false)
    (h : x ∈ l) : stripR l ≠ [] := by
  intro hnil
  have := mem_stripR_of hx h
  rw [hnil] at this
  simp at this

theorem pstrip_ne_nil_of_mem {x : Char} {l : List Char} (hx : pySpace x = false)
    (h : x ∈ l) : pstrip l ≠ [] := by
  intro hnil
  have := mem_pstrip_of hx h
  rw [hnil] at this
  simp at this

theorem stripL_append_of {A : List Char} (B : List Char) (hA : stripL A = A)
    (hne : A ≠ []) : stripL (A ++ B) = A ++ B := by
  cases A with
  | nil => exact absurd rfl hne
  | cons a A2 =>
    have ha : pySpace a = false := stripL_cons_elim hA
    simpa using stripL_cons_of ha (A2 ++ B)

theorem stripR_append_of (A : List Char) {B : List Char} (hB : stripR B ≠ []) :
    stripR (A ++ B) = A ++ stripR B := by
  induction A with
  | nil => simp
  | cons a A2 ih =>
    cases hx : A2 ++ stripR B with
    | nil =>
      rcases List.append_eq_nil.mp hx with ⟨_, h2⟩
      exact absurd h2 hB
    | cons y t =>
      have : stripR (A2 ++ B) = A2 ++ stripR B := ih
      simp [stripR, stripRCons, this, hx]

/-! ## Lemmas about splitting -/

theorem topSplitAux_ne_nil (l : List Char) (d : Int) : topSplitAux l d ≠ [] := by
  cases l with
  | nil => simp [topSplitAux]
  | cons c rest =>
    by_cases h : c = ',' ∧ d = 0
    · simp [topSplitAux, h]
    · simp only [topSplitAux, if_neg h]
      cases topSplitAux rest (if c = '(' then d + 1 else if c = ')' then d - 1 else d) <;>
        simp

theorem consHead_of_ne {T : List (List Char)} (cur : List Char) (h : T ≠ []) :
    ∃ hh tt, T = hh :: tt ∧ consHead cur T = (cur ++ hh) :: tt := by
  cases T with
  | nil => exact absurd rfl h
  | cons hh tt => exact ⟨hh, tt, rfl, rfl⟩

theorem consHead_nil_of_ne {T : List (List Char)} (h : T ≠ []) : consHead [] T = T := by
  cases T with
  | nil => exact absurd rfl h
  | cons hh tt => simp [consHead]

theorem stripKeep_cons_of_ne (x : List Char) {T : List (List Char)} (h : T ≠ []) :
    stripKeep (x :: T) = pstrip x :: stripKeep T := by
  cases T with
  | nil => exact absurd rfl h
  | cons y t => simp [stripKeep]

/-- The accumulator loop of the cleaners equals the positional description:
strip-and-keep applied to the split at depth-zero commas, with the pending
text prepended to the first chunk. -/
theorem splitLoop_eq (l : List Char) : ∀ (d : Int) (cur : List Char)
    (acc : List (List Char)),
    splitLoop l d cur acc = acc ++ stripKeep (consHead cur (topSplitAux l d)) := by
  induction l with
  | nil =>
    intro d cur acc
    by_cases h : pstrip cur = []
    · simp [splitLoop, h, topSplitAux, consHead, stripKeep]
    · simp [splitLoop, h, topSplitAux, consHead, stripKeep]
  | cons c rest ih =>
    intro d cur acc
    by_cases h1 : c = '('
    · have hcomma : ¬(c = ',' ∧ d = 0) := by simp [h1]
      simp only [splitLoop, if_pos h1, if_neg hcomma]
      rw [ih (d + 1) (cur ++ [c]) acc]
      congr 1
      simp only [topSplitAux, if_neg hcomma, if_pos h1]
      obtain ⟨hh, tt, he, _⟩ := consHead_of_ne (cur ++ [c]) (topSplitAux_ne_nil rest (d + 1))
      rw [he]
      simp [consHead]
    · by_cases h2 : c = ')'
      · have hcomma : ¬(c = ',' ∧ d = 0) := by simp [h2]
        simp only [splitLoop, if_neg h1, if_pos h2, if_neg hcomma]
        rw [ih (d - 1) (cur ++ [c]) acc]
        congr 1
        simp only [topSplitAux, if_neg hcomma, if_neg h1, if_pos h2]
        obtain ⟨hh, tt, he, _⟩ :=
          consHead_of_ne (cur ++ [c]) (topSplitAux_ne_nil rest (d - 1))
        rw [he]
        simp [consHead]
      · by_cases h3 : c = ',' ∧ d = 0
        · simp only [splitLoop, if_neg h1, if_neg h2, if_pos h3]
          rw [ih d [] (acc ++ [pstrip cur])]
          simp only [topSplitAux, if_pos h3]
          rw [consHead_nil_of_ne (topSplitAux_ne_nil rest d)]
          have : consHead cur ([] :: topSplitAux rest d) = cur :: topSplitAux rest d := by
            simp [consHead]
          rw [this, stripKeep_cons_of_ne cur (topSplitAux_ne_nil rest d)]
          simp
        · simp only [splitLoop, if_neg h1, if_neg h2, if_neg h3]
          rw [ih d (cur ++ [c]) acc]
          congr 1
          have hd2 : (if c = '(' then d + 1 else if c = ')' then d - 1 else d) = d := by
            simp [h1, h2]
          simp only [topSplitAux, if_neg h3, hd2]
          obtain ⟨hh, tt, he, _⟩ := consHead_of_ne (cur ++ [c]) (topSplitAux_ne_nil rest d)
          rw [he]
          simp [consHead]

theorem splitOn_ne_nil (sep : Char) (l : List Char) : splitOn sep l ≠ [] := by
  cases l with
  | nil => simp [splitOn]
  | cons c rest =>
    by_cases h : c = sep
    · simp [splitOn, h]
    · simp only [splitOn, if_neg h]
      cases splitOn sep rest <;> simp

theorem splitOn_of_not_mem {sep : Char} : ∀ {l : List Char}, sep ∉ l → splitOn sep l = [l] := by
  intro l
  induction l with
  | nil => intro _; rfl
  | cons c rest ih =>
    intro h
    have hc : ¬c = sep := by
      intro he; exact h (he ▸ List.mem_cons_self c rest)
    have hr : sep ∉ rest := fun hm => h (List.mem_cons_of_mem c hm)
    simp only [splitOn, if_neg hc, ih hr]

theorem splitOn_append {a : List Char} (b : List Char) (ha : ',' ∉ a) :
    splitOn ',' (a ++ ',' :: b) = a :: splitOn ',' b := by
  induction a with
  | nil => simp [splitOn]
  | cons c rest ih =>
    have hc : ¬c = ',' := by
      intro he; exact ha (he ▸ List.mem_cons_self c rest)
    have hr : ',' ∉ rest := fun hm => ha (List.mem_cons_of_mem c hm)
    have e2 : splitOn ',' ((c :: rest) ++ ',' :: b) =
        match splitOn ',' (rest ++ ',' :: b) with
        | [] => [[c]]
        | h :: t => (c :: h) :: t := by
      simp [splitOn, hc]
    rw [e2, ih hr]

theorem not_mem_of_mem_splitOn {sep : Char} :
    ∀ {l : List Char} {c : List Char}, c ∈ splitOn sep l → sep ∉ c := by
  intro l
  induction l with
  | nil =>
    intro c hc
    simp [splitOn] at hc
    simp [hc]
  | cons x rest ih =>
    intro c hc
    by_cases hx : x = sep
    · simp only [splitOn, if_pos hx] at hc
      rcases List.mem_cons.mp hc with h1 | h2
      · simp [h1]
      · exact ih h2
    · simp only [splitOn, if_neg hx] at hc
      cases hs : splitOn sep rest with
      | nil => exact absurd hs (splitOn_ne_nil sep rest)
      | cons hh tt =>
        rw [hs] at hc
        rcases List.mem_cons.mp hc with h1 | h2
        · subst h1
          intro hm
          rcases List.mem_cons.mp hm with h3 | h4
          · exact hx h3.symm
          · exact ih (hs ▸ List.mem_cons_self hh tt) h4
        · exact ih (hs ▸ List.mem_cons_of_mem hh h2)

theorem mem_of_mem_splitOn {sep x : Char} :
    ∀ {l : List Char} {c : List Char}, c ∈ splitOn sep l → x ∈ c → x ∈ l := by
  intro l
  induction l with
  | nil =>
    intro c hc hx
    simp [splitOn] at hc
    rw [hc] at hx
    simp at hx
  | cons y rest ih =>
    intro c hc hx
    by_cases hy : y = sep
    · simp only [splitOn, if_pos hy] at hc
      rcases List.mem_cons.mp hc with h1 | h2
      · rw [h1] at hx; simp at hx
      · exact List.mem_cons_of_mem y (ih h2 hx)
    · simp only [splitOn, if_neg hy] at hc
      cases hs : splitOn sep rest with
      | nil => exact absurd hs (splitOn_ne_nil sep rest)
      | cons hh tt =>
        rw [hs] at hc
        rcases List.mem_cons.mp hc with h1 | h2
        · subst h1
          rcases List.mem_cons.mp hx with h3 | h4
          · simp [h3]
          · exact List.mem_cons_of_mem y (ih (hs ▸ List.mem_cons_self hh tt) h4)
        · exact List.mem_cons_of_mem y (ih (hs ▸ List.mem_cons_of_mem hh h2) hx)

/-- With no parentheses the depth never moves, so the positional split is
the plain comma split. -/
theorem topSplitAux_no_paren : ∀ {l : List Char}, '(' ∉ l → ')' ∉ l →
    topSplitAux l 0 = splitOn ',' l := by
  intro l
  induction l with
  | nil => intro _ _; rfl
  | cons c rest ih =>
    intro hp hq
    have hcp : ¬c = '(' := by intro he; exact hp (he ▸ List.mem_cons_self c rest)
    have hcq : ¬c = ')' := by intro he; exact hq (he ▸ List.mem_cons_self c rest)
    have hrp : '(' ∉ rest := fun hm => hp (List.mem_cons_of_mem c hm)
    have hrq : ')' ∉ rest := fun hm => hq (List.mem_cons_of_mem c hm)
    by_cases hc : c = ','
    · have e1 : topSplitAux (c :: rest) 0 = [] :: topSplitAux rest 0 := by
        simp [topSplitAux, hc]
      have e2 : splitOn ',' (c :: rest) = [] :: splitOn ',' rest := by
        simp [splitOn, hc]
      rw [e1, e2, ih hrp hrq]
    · have h3 : ¬(c = ',' ∧ (0 : Int) = 0) := by simp [hc]
      have e1 : topSplitAux (c :: rest) 0 =
          match topSplitAux rest 0 with
          | [] => [[c]]
          | h :: t => (c :: h) :: t := by
        simp [topSplitAux, h3, hc, hcp, hcq]
      have e2 : splitOn ',' (c :: rest) =
          match splitOn ',' rest with
          | [] => [[c]]
          | h :: t => (c :: h) :: t := by
        simp [splitOn, hc]
      rw [e1, e2, ih hrp hrq]

/-! ## Lemmas about the chunk cleaners and joining -/

theorem stripRCons_of_ne (x : Char) {m : List Char} (h : m ≠ []) :
    stripRCons x m = x :: m := by
  cases m with
  | nil => exact absurd rfl h
  | cons y t => rfl

theorem stripR_snoc (X : List Char) (c : Char) :
    stripR (X ++ [c]) = if pySpace c then stripR X else X ++ [c] := by
  induction X with
  | nil =>
    by_cases h : pySpace c
    · simp [stripR, stripRCons, h]
    · simp [stripR, stripRCons, h]
  | cons x X2 ih =>
    by_cases h : pySpace c
    · simp only [List.cons_append]
      show stripRCons x (stripR (X2 ++ [c])) = _
      rw [ih]
      simp only [if_pos h]
      rfl
    · simp only [List.cons_append]
      show stripRCons x (stripR (X2 ++ [c])) = _
      rw [ih]
      simp only [if_neg h]
      rw [stripRCons_of_ne x (by simp)]

theorem takeWhile_append_stop {c0 : Char} (A R : List Char)
    (hA : ∀ a ∈ A, a ≠ c0) :
    (A ++ c0 :: R).takeWhile (fun c => c ≠ c0) = A := by
  induction A with
  | nil => simp [List.takeWhile_cons]
  | cons a A2 ih =>
    have ha : (a ≠ c0) := hA a (by simp)
    have ih2 := ih (fun x hx => hA x (by simp [hx]))
    simpa [List.takeWhile_cons, ha] using ih2

theorem dropWhile_append_stop {c0 : Char} (A R : List Char)
    (hA : ∀ a ∈ A, a ≠ c0) :
    (A ++ c0 :: R).dropWhile (fun c => c ≠ c0) = c0 :: R := by
  induction A with
  | nil => simp [List.dropWhile_cons]
  | cons a A2 ih =>
    have ha : (a ≠ c0) := hA a (by simp)
    have ih2 := ih (fun x hx => hA x (by simp [hx]))
    simpa [List.dropWhile_cons, ha] using ih2

theorem jsCleanChunk_no_eq (p : List Char) : '=' ∉ jsCleanChunk p := by
  unfold jsCleanChunk
  by_cases h : '=' ∈ p
  · simp only [if_pos h]
    intro hm
    have h2 : '=' ∈ eqHead p := mem_pstrip (mem_pstrip hm)
    have h3 := List.mem_takeWhile_imp h2
    simp at h3
  · simp only [if_neg h]
    intro hm
    exact h (mem_pstrip hm)

theorem jsCleanChunk_pstrip_fix (p : List Char) :
    pstrip (jsCleanChunk p) = jsCleanChunk p := by
  unfold jsCleanChunk
  exact pstrip_idem _

theorem jsCleanChunk_fix {t : List Char} (h1 : '=' ∉ t) (h2 : pstrip t = t) :
    jsCleanChunk t = t := by
  unfold jsCleanChunk
  simp only [if_neg h1]
  exact h2

theorem jsCleanChunk_subset {x : Char} {p : List Char} (h : x ∈ jsCleanChunk p) :
    x ∈ p := by
  unfold jsCleanChunk at h
  by_cases hp : '=' ∈ p
  · simp only [if_pos hp] at h
    exact List.takeWhile_sublist _ |>.subset (mem_pstrip (mem_pstrip h))
  · simp only [if_neg hp] at h
    exact mem_pstrip h

theorem tsCleanChunk_subset {x : Char} {p : List Char} (h : x ∈ tsCleanChunk p) :
    x ∈ p ∨ x = ':' ∨ x = ' ' := by
  unfold tsCleanChunk at h
  set p1 := if '=' ∈ p then pstrip (eqHead p) else p with hp1
  have hsub : ∀ y : Char, y ∈ p1 → y ∈ p := by
    intro y hy
    rw [hp1] at hy
    by_cases hp : '=' ∈ p
    · simp only [if_pos hp] at hy
      exact List.takeWhile_sublist _ |>.subset (mem_pstrip hy)
    · simp only [if_neg hp] at hy
      exact hy
  by_cases hc : ':' ∈ p1
  · simp only [if_pos hc] at h
    rcases List.mem_append.mp h with h1 | h2
    · exact Or.inl (hsub x (List.takeWhile_sublist _ |>.subset (mem_pstrip h1)))
    · rcases List.mem_cons.mp h2 with h3 | h4
      · exact Or.inr (Or.inl h3)
      · rcases List.mem_cons.mp h4 with h5 | h6
        · exact Or.inr (Or.inr h5)
        · have h7 := mem_pstrip h6
          have h8 := List.mem_of_mem_tail h7
          exact Or.inl (hsub x (List.dropWhile_sublist _ |>.subset h8))
  · simp only [if_neg hc] at h
    exact Or.inl (hsub x (mem_pstrip h))

theorem tsCleanChunk_no_eq (p : List Char) : '=' ∉ tsCleanChunk p := by
  intro hm
  rcases tsCleanChunk_subset hm with h1 | h2 | h3
  · -- '=' would have to be in p1, impossible in either branch
    revert h1
    unfold tsCleanChunk at hm
    -- direct argument: redo the case split on p1
    intro h1
    by_cases hp : '=' ∈ p
    · -- then every character of tsCleanChunk p comes from pstrip (eqHead p),
      -- ':' or ' '; reuse the subset proof shape on p1 instead of p
      have : '=' ∈ tsCleanChunk p := hm
      unfold tsCleanChunk at this
      set p1 := if '=' ∈ p then pstrip (eqHead p) else p with hp1
      have hnp1 : '=' ∉ p1 := by
        rw [hp1]
        simp only [if_pos hp]
        intro hx
        have := List.mem_takeWhile_imp (mem_pstrip hx)
        simp at this
      by_cases hc : ':' ∈ p1
      · simp only [if_pos hc] at this
        rcases List.mem_append.mp this with g1 | g2
        · exact hnp1 (List.takeWhile_sublist _ |>.subset (mem_pstrip g1))
        · rcases List.mem_cons.mp g2 with g3 | g4
          · exact absurd g3 (by decide)
          · rcases List.mem_cons.mp g4 with g5 | g6
            · exact absurd g5 (by decide)
            · exact hnp1 (List.dropWhile_sublist _ |>.subset
                (List.mem_of_mem_tail (mem_pstrip g6)))
      · simp only [if_neg hc] at this
        exact hnp1 (mem_pstrip this)
    · -- p1 = p and '=' ∉ p
      have : '=' ∈ tsCleanChunk p := hm
      unfold tsCleanChunk at this
      set p1 := if '=' ∈ p then pstrip (eqHead p) else p with hp1
      have hnp1 : '=' ∉ p1 := by
        rw [hp1]
        simp only [if_neg hp]
        exact hp
      by_cases hc : ':' ∈ p1
      · simp only [if_pos hc] at this
        rcases List.mem_append.mp this with g1 | g2
        · exact hnp1 (List.takeWhile_sublist _ |>.subset (mem_pstrip g1))
        · rcases List.mem_cons.mp g2 with g3 | g4
          · exact absurd g3 (by decide)
          · rcases List.mem_cons.mp g4 with g5 | g6
            · exact absurd g5 (by decide)
            · exact hnp1 (List.dropWhile_sublist _ |>.subset
                (List.mem_of_mem_tail (mem_pstrip g6)))
      · simp only [if_neg hc] at this
        exact hnp1 (mem_pstrip this)
  · exact absurd h2 (by decide)
  · exact absurd h3 (by decide)

theorem p1_no_eq (p : List Char) :
    '=' ∉ (if '=' ∈ p then pstrip (eqHead p) else p) := by
  by_cases hp : '=' ∈ p
  · simp only [if_pos hp]
    intro hx
    have := List.mem_takeWhile_imp (mem_pstrip hx)
    simp at this
  · simp only [if_neg hp]
    exact hp

theorem mem_p1 {x : Char} {p : List Char}
    (h : x ∈ (if '=' ∈ p then pstrip (eqHead p) else p)) : x ∈ p := by
  by_cases hp : '=' ∈ p
  · simp only [if_pos hp] at h
    exact List.takeWhile_sublist _ |>.subset (mem_pstrip h)
  · simp only [if_neg hp] at h
    exact h

theorem tsCleanChunk_colon (p : List Char)
    (hc : ':' ∈ (if '=' ∈ p then pstrip (eqHead p) else p)) :
    tsCleanChunk p =
      pstrip ((if '=' ∈ p then pstrip (eqHead p) else p).takeWhile (fun c => c ≠ ':'))
        ++ ':' :: ' ' ::
        pstrip (((if '=' ∈ p then pstrip (eqHead p) else p).dropWhile
          (fun c => c ≠ ':')).tail) := by
  unfold tsCleanChunk
  simp only [if_pos hc]

theorem tsCleanChunk_nocolon (p : List Char)
    (hc : ':' ∉ (if '=' ∈ p then pstrip (eqHead p) else p)) :
    tsCleanChunk p = pstrip (if '=' ∈ p then pstrip (eqHead p) else p) := by
  unfold tsCleanChunk
  simp only [if_neg hc]

theorem stripL_eq_self_of_pstrip {A : List Char} (hA : pstrip A = A) : stripL A = A := by
  conv_lhs => rw [← hA]
  rw [stripL_pstrip, hA]

theorem stripR_eq_self_of_pstrip {A : List Char} (hA : pstrip A = A) : stripR A = A := by
  conv_lhs => rw [← hA]
  rw [stripR_pstrip, hA]

theorem pstrip_colon_form (A B : List Char) (hA : pstrip A = A) (hB : pstrip B = B) :
    pstrip (A ++ ':' :: ' ' :: B) =
      if B = [] then A ++ [':'] else A ++ ':' :: ' ' :: B := by
  have hL : stripL (A ++ ':' :: ' ' :: B) = A ++ ':' :: ' ' :: B := by
    cases A with
    | nil =>
      simpa using stripL_cons_of (show pySpace ':' = false by decide) (' ' :: B)
    | cons a A2 =>
      exact stripL_append_of _ (stripL_eq_self_of_pstrip hA) (by simp)
  unfold pstrip
  rw [hL]
  by_cases hB0 : B = []
  · subst hB0
    have e1 : A ++ ':' :: ' ' :: ([] : List Char) = (A ++ [':']) ++ [' '] := by simp
    rw [e1, stripR_snoc]
    simp only [show pySpace ' ' = true by decide, if_true]
    rw [stripR_snoc]
    simp [show pySpace ':' = false by decide]
  · have hRB : stripR B = B := stripR_eq_self_of_pstrip hB
    have e1 : A ++ ':' :: ' ' :: B = (A ++ [':', ' ']) ++ B := by simp
    rw [e1, stripR_append_of _ (by rw [hRB]; exact hB0)]
    rw [hRB]
    simp [hB0]

/-- Re-cleaning the stripped form of a cleaned TypeScript chunk gives the
cleaned chunk back. -/
theorem tsCleanChunk_reclean (p : List Char) :
    tsCleanChunk (pstrip (tsCleanChunk p)) = tsCleanChunk p := by
  by_cases hc : ':' ∈ (if '=' ∈ p then pstrip (eqHead p) else p)
  · rw [tsCleanChunk_colon p hc]
    set A := pstrip ((if '=' ∈ p then pstrip (eqHead p) else p).takeWhile
      (fun c => c ≠ ':')) with hAdef
    set B := pstrip (((if '=' ∈ p then pstrip (eqHead p) else p).dropWhile
      (fun c => c ≠ ':')).tail) with hBdef
    have hAfix : pstrip A = A := by rw [hAdef]; exact pstrip_idem _
    have hBfix : pstrip B = B := by rw [hBdef]; exact pstrip_idem _
    have hAc : ∀ a ∈ A, a ≠ ':' := by
      intro a ha he
      subst he
      have := List.mem_takeWhile_imp (mem_pstrip (hAdef ▸ ha))
      simp at this
    have heTok : '=' ∉ A ++ ':' :: ' ' :: B := by
      have h0 := tsCleanChunk_no_eq p
      rw [tsCleanChunk_colon p hc] at h0
      exact h0
    rw [pstrip_colon_form A B hAfix hBfix]
    by_cases hB0 : B = []
    · rw [if_pos hB0, hB0]
      have hd_eq : '=' ∉ A ++ [':'] := by
        intro hx
        rcases List.mem_append.mp hx with h1 | h2
        · exact heTok (List.mem_append.mpr (Or.inl h1))
        · simp at h2
      have hdc : ':' ∈ (if '=' ∈ (A ++ [':']) then pstrip (eqHead (A ++ [':']))
          else A ++ [':']) := by
        simp only [if_neg hd_eq]
        simp
      rw [tsCleanChunk_colon _ hdc]
      simp only [if_neg hd_eq]
      have e1 : A ++ [':'] = A ++ ':' :: ([] : List Char) := by simp
      rw [e1, takeWhile_append_stop A ([] : List Char) hAc,
        dropWhile_append_stop A ([] : List Char) hAc]
      simp [hAfix, show pstrip ([] : List Char) = [] from rfl]
    · simp only [if_neg hB0]
      have hdc : ':' ∈ (if '=' ∈ (A ++ ':' :: ' ' :: B) then
          pstrip (eqHead (A ++ ':' :: ' ' :: B)) else A ++ ':' :: ' ' :: B) := by
        simp only [if_neg heTok]
        simp
      rw [tsCleanChunk_colon _ hdc]
      simp only [if_neg heTok]
      rw [takeWhile_append_stop A (' ' :: B) hAc, dropWhile_append_stop A (' ' :: B) hAc]
      simp only [List.tail_cons]
      rw [pstrip_cons_space (by decide) B, hBfix, hAfix]
  · rw [tsCleanChunk_nocolon p hc]
    rw [pstrip_idem]
    set m := pstrip (if '=' ∈ p then pstrip (eqHead p) else p) with hm
    have hme : '=' ∉ m := by
      intro hx
      rw [hm] at hx
      exact p1_no_eq p (mem_pstrip hx)
    have hmc : ':' ∉ m := by
      intro hx
      rw [hm] at hx
      exact hc (mem_pstrip hx)
    have hmc2 : ':' ∉ (if '=' ∈ m then pstrip (eqHead m) else m) := by
      simp only [if_neg hme]
      exact hmc
    rw [tsCleanChunk_nocolon m hmc2]
    simp only [if_neg hme]
    rw [hm, pstrip_idem]

/-- Re-cleaning a cleaned JavaScript chunk gives it back. -/
theorem jsCleanChunk_reclean (p : List Char) :
    jsCleanChunk (pstrip (jsCleanChunk p)) = jsCleanChunk p := by
  rw [jsCleanChunk_pstrip_fix]
  exact jsCleanChunk_fix (jsCleanChunk_no_eq p) (jsCleanChunk_pstrip_fix p)

theorem tsCleanChunk_pstrip_ne {p : List Char} (h : tsCleanChunk p ≠ []) :
    pstrip (tsCleanChunk p) ≠ [] := by
  intro h0
  have h1 := tsCleanChunk_reclean p
  rw [h0] at h1
  have h2 : tsCleanChunk ([] : List Char) = [] := by rfl
  rw [h2] at h1
  exact h (h1.symm)

theorem sepJoin_cons_cons (t u : List Char) (rest : List (List Char)) :
    sepJoin (t :: u :: rest) = t ++ ',' :: ' ' :: sepJoin (u :: rest) := rfl

theorem sepJoin_ne_nil {t : List Char} (rest : List (List Char)) (h : t ≠ []) :
    sepJoin (t :: rest) ≠ [] := by
  cases rest with
  | nil => simpa [sepJoin] using h
  | cons u us =>
    rw [sepJoin_cons_cons]
    simp

theorem mem_sepJoin {x : Char} : ∀ {toks : List (List Char)}, x ∈ sepJoin toks →
    (∃ t ∈ toks, x ∈ t) ∨ x = ',' ∨ x = ' ' := by
  intro toks
  induction toks with
  | nil => intro h; simp [sepJoin] at h
  | cons t rest ih =>
    intro h
    cases rest with
    | nil =>
      refine Or.inl ⟨t, by simp, ?_⟩
      simpa [sepJoin] using h
    | cons u us =>
      rw [sepJoin_cons_cons] at h
      rcases List.mem_append.mp h with h1 | h2
      · exact Or.inl ⟨t, by simp, h1⟩
      · rcases List.mem_cons.mp h2 with h3 | h4
        · exact Or.inr (Or.inl h3)
        · rcases List.mem_cons.mp h4 with h5 | h6
          · exact Or.inr (Or.inr h5)
          · rcases ih h6 with ⟨v, hv, hxv⟩ | h7
            · exact Or.inl ⟨v, List.mem_cons_of_mem t hv, hxv⟩
            · exact Or.inr h7

theorem splitOn_sepJoin : ∀ (rest : List (List Char)) (t : List Char),
    ',' ∉ t → (∀ u ∈ rest, ',' ∉ u) →
    splitOn ',' (sepJoin (t :: rest)) = t :: rest.map (fun u => ' ' :: u) := by
  intro rest
  induction rest with
  | nil =>
    intro t ht _
    simp [sepJoin, splitOn_of_not_mem ht]
  | cons u us ih =>
    intro t ht hu
    rw [sepJoin_cons_cons, splitOn_append _ ht]
    have h1 := ih u (hu u (by simp)) (fun v hv => hu v (by simp [hv]))
    have h2 : splitOn ',' (' ' :: sepJoin (u :: us)) =
        (' ' :: u) :: us.map (fun v => ' ' :: v) := by
      have hsp : ¬(' ' = ',') := by decide
      have e : splitOn ',' (' ' :: sepJoin (u :: us)) =
          match splitOn ',' (sepJoin (u :: us)) with
          | [] => [[' ']]
          | h :: t2 => (' ' :: h) :: t2 := by
        simp [splitOn, hsp]
      rw [e, h1]
    rw [h2]
    simp

theorem mem_stripKeep : ∀ {L : List (List Char)} {c : List Char},
    c ∈ stripKeep L → ∃ d ∈ L, c = pstrip d := by
  intro L
  induction L with
  | nil => intro c hc; simp [stripKeep] at hc
  | cons t rest ih =>
    intro c hc
    cases rest with
    | nil =>
      by_cases h : pstrip t = []
      · simp [stripKeep, h] at hc
      · simp [stripKeep, h] at hc
        exact ⟨t, by simp, hc⟩
    | cons u us =>
      rw [stripKeep_cons_of_ne t (by simp)] at hc
      rcases List.mem_cons.mp hc with h1 | h2
      · exact ⟨t, by simp, h1⟩
      · obtain ⟨d, hd, he⟩ := ih h2
        exact ⟨d, List.mem_cons_of_mem t hd, he⟩

theorem stripKeep_eq : ∀ (l : List (List Char)), (∀ t ∈ l, pstrip t ≠ []) →
    stripKeep l = l.map pstrip := by
  intro l
  induction l with
  | nil => intro _; rfl
  | cons t rest ih =>
    intro h
    cases rest with
    | nil => simp [stripKeep, h t (by simp)]
    | cons u us =>
      rw [stripKeep_cons_of_ne t (by simp)]
      rw [ih (fun v hv => h v (List.mem_cons_of_mem t hv))]
      simp

/-- Joining cleaned tokens with ", " and running the whole cleaner again
reproduces the joined string, provided every token is nonempty, free of
top-level separators and parentheses, survives stripping, and is a fixed
point of its per-chunk cleaner after stripping. -/
theorem clean_reclean_generic (f : List Char → List Char) (toks : List (List Char))
    (htok : ∀ t ∈ toks, t ≠ [] ∧ ',' ∉ t ∧ '(' ∉ t ∧ ')' ∉ t ∧
      pstrip t ≠ [] ∧ f (pstrip t) = t) :
    (if sepJoin toks = [] then [] else
      sepJoin ((splitLoop (sepJoin toks) 0 [] []).map f)) = sepJoin toks := by
  cases toks with
  | nil => simp [sepJoin]
  | cons t rest =>
    have ht := htok t (by simp)
    have hJne : sepJoin (t :: rest) ≠ [] := sepJoin_ne_nil rest ht.1
    rw [if_neg hJne]
    have hp : '(' ∉ sepJoin (t :: rest) := by
      intro hx
      rcases mem_sepJoin hx with ⟨v, hv, hxv⟩ | h | h
      · exact ((htok v hv).2.2.1) hxv
      · exact absurd h (by decide)
      · exact absurd h (by decide)
    have hq : ')' ∉ sepJoin (t :: rest) := by
      intro hx
      rcases mem_sepJoin hx with ⟨v, hv, hxv⟩ | h | h
      · exact ((htok v hv).2.2.2.1) hxv
      · exact absurd h (by decide)
      · exact absurd h (by decide)
    have hsplit : splitLoop (sepJoin (t :: rest)) 0 [] [] =
        stripKeep (splitOn ',' (sepJoin (t :: rest))) := by
      rw [splitLoop_eq, consHead_nil_of_ne (topSplitAux_ne_nil _ _),
        topSplitAux_no_paren hp hq]
      simp
    rw [hsplit,
      splitOn_sepJoin rest t ht.2.1 (fun u hu => (htok u (by simp [hu])).2.1)]
    have hsk : stripKeep (t :: rest.map (fun u => ' ' :: u)) =
        (t :: rest.map (fun u => ' ' :: u)).map pstrip := by
      apply stripKeep_eq
      intro v hv
      rcases List.mem_cons.mp hv with h1 | h2
      · rw [h1]; exact ht.2.2.2.2.1
      · obtain ⟨u, hu, he⟩ := List.mem_map.mp h2
        rw [← he, pstrip_cons_space (by decide) u]
        exact (htok u (by simp [hu])).2.2.2.2.1
    rw [hsk]
    have hmap : ((t :: rest.map (fun u => ' ' :: u)).map pstrip).map f = t :: rest := by
      simp only [List.map_cons, List.map_map]
      rw [ht.2.2.2.2.2]
      congr 1
      have hpt : ∀ u ∈ rest, (f ∘ pstrip ∘ fun v => ' ' :: v) u = u := by
        intro u hu
        show f (pstrip (' ' :: u)) = u
        rw [pstrip_cons_space (by decide) u]
        exact (htok u (by simp [hu])).2.2.2.2.2
      calc rest.map (f ∘ pstrip ∘ fun v => ' ' :: v)
          = rest.map id := List.map_congr_left hpt
        _ = rest := List.map_id rest
    rw [hmap]

/-- The inner step of the amended idempotence result for one cleaner. -/
theorem cleanL_reclean (f : List Char → List Char) (s : List Char)
    (hp : '(' ∉ s) (hq : ')' ∉ s)
    (hne : ∀ c ∈ splitLoop s 0 [] [], f c ≠ [])
    (hsub : ∀ (c : List Char) (x : Char), x ∈ f c → x ∈ c ∨ x = ':' ∨ x = ' ')
    (hpstr : ∀ c ∈ splitLoop s 0 [] [], pstrip (f c) ≠ [])
    (hrecl : ∀ c : List Char, f (pstrip (f c)) = f c) :
    (if sepJoin ((splitLoop s 0 [] []).map f) = [] then []
      else sepJoin ((splitLoop (sepJoin ((splitLoop s 0 [] []).map f)) 0 [] []).map f))
      = sepJoin ((splitLoop s 0 [] []).map f) := by
  apply clean_reclean_generic
  intro t ht
  obtain ⟨c, hcmem, he⟩ := List.mem_map.mp ht
  have hchunk : ',' ∉ c ∧ '(' ∉ c ∧ ')' ∉ c := by
    have hsp2 : splitLoop s 0 [] [] = stripKeep (splitOn ',' s) := by
      rw [splitLoop_eq, consHead_nil_of_ne (topSplitAux_ne_nil _ _),
        topSplitAux_no_paren hp hq]
      simp
    rw [hsp2] at hcmem
    obtain ⟨d, hd, he2⟩ := mem_stripKeep hcmem
    refine ⟨?_, ?_, ?_⟩
    · intro hx; rw [he2] at hx
      exact not_mem_of_mem_splitOn hd (mem_pstrip hx)
    · intro hx; rw [he2] at hx
      exact hp (mem_of_mem_splitOn hd (mem_pstrip hx))
    · intro hx; rw [he2] at hx
      exact hq (mem_of_mem_splitOn hd (mem_pstrip hx))
  refine ⟨by rw [← he]; exact hne c hcmem, ?_, ?_, ?_,
    by rw [← he]; exact hpstr c hcmem, by rw [← he]; exact hrecl c⟩
  · intro hx
    rw [← he] at hx
    rcases hsub c ',' hx with h1 | h2 | h3
    · exact hchunk.1 h1
    · exact absurd h2 (by decide)
    · exact absurd h3 (by decide)
  · intro hx
    rw [← he] at hx
    rcases hsub c '(' hx with h1 | h2 | h3
    · exact hchunk.2.1 h1
    · exact absurd h2 (by decide)
    · exact absurd h3 (by decide)
  · intro hx
    rw [← he] at hx
    rcases hsub c ')' hx with h1 | h2 | h3
    · exact hchunk.2.2 h1
    · exact absurd h2 (by decide)
    · exact absurd h3 (by decide)

/-- C7 (corrected, amended): parameter cleaning is idempotent for every
string without parentheses whose kept top-level chunks all clean to a
nonempty parameter; in general it is not idempotent (see the
counterexample). -/
theorem C7_amended_idempotent (s : String)
    (hp : '(' ∉ s.data) (hq : ')' ∉ s.data)
    (hjs : ∀ c ∈ splitLoop s.data 0 [] [], jsCleanChunk c ≠ [])
    (hts : ∀ c ∈ splitLoop s.data 0 [] [], tsCleanChunk c ≠ []) :
    cleanJsParams (cleanJsParams s) = cleanJsParams s ∧
    cleanTsParams (cleanTsParams s) = cleanTsParams s := by
  have hjsL : cleanJsParamsL (cleanJsParamsL s.data) = cleanJsParamsL s.data := by
    by_cases hempty : s.data = []
    · rw [hempty]; rfl
    · have e : cleanJsParamsL s.data =
          sepJoin ((splitLoop s.data 0 [] []).map jsCleanChunk) := by
        unfold cleanJsParamsL
        rw [if_neg hempty]
      rw [e]
      have e2 : cleanJsParamsL (sepJoin ((splitLoop s.data 0 [] []).map jsCleanChunk)) =
          if sepJoin ((splitLoop s.data 0 [] []).map jsCleanChunk) = [] then []
          else sepJoin ((splitLoop
            (sepJoin ((splitLoop s.data 0 [] []).map jsCleanChunk)) 0 [] []).map
              jsCleanChunk) := by
        unfold cleanJsParamsL
        rfl
      rw [e2]
      exact cleanL_reclean jsCleanChunk s.data hp hq hjs
        (fun c x hx => Or.inl (jsCleanChunk_subset hx))
        (fun c hc => by rw [jsCleanChunk_pstrip_fix]; exact hjs c hc)
        (fun c => jsCleanChunk_reclean c)
  have htsL : cleanTsParamsL (cleanTsParamsL s.data) = cleanTsParamsL s.data := by
    by_cases hempty : s.data = []
    · rw [hempty]; rfl
    · have e : cleanTsParamsL s.data =
          sepJoin ((splitLoop s.data 0 [] []).map tsCleanChunk) := by
        unfold cleanTsParamsL
        rw [if_neg hempty]
      rw [e]
      have e2 : cleanTsParamsL (sepJoin ((splitLoop s.data 0 [] []).map tsCleanChunk)) =
          if sepJoin ((splitLoop s.data 0 [] []).map tsCleanChunk) = [] then []
          else sepJoin ((splitLoop
            (sepJoin ((splitLoop s.data 0 [] []).map tsCleanChunk)) 0 [] []).map
              tsCleanChunk) := by
        unfold cleanTsParamsL
        rfl
      rw [e2]
      exact cleanL_reclean tsCleanChunk s.data hp hq hts
        (fun c x hx => tsCleanChunk_subset hx)
        (fun c hc => tsCleanChunk_pstrip_ne (hts c hc))
        (fun c => tsCleanChunk_reclean c)
  constructor
  · show String.mk (cleanJsParamsL (cleanJsParamsL s.data)) = String.mk (cleanJsParamsL s.data)
    exact congrArg String.mk hjsL
  · show String.mk (cleanTsParamsL (cleanTsParamsL s.data)) = String.mk (cleanTsParamsL s.data)
    exact congrArg String.mk htsL

/-- C6: for every raw parameter string, both cleaners split exactly at the
commas occurring at parenthesis depth zero (depth tracked character by
character by topSplitAux) and clean each resulting chunk, stripping any
default-value suffix introduced by '='; in particular "a, b=f(1,2)" yields
exactly the two parameters "a" and "b" in both cleaners. -/
theorem C6_clean_splits_top_level :
    (∀ s : String, cleanJsParams s = String.mk (if s.data = [] then []
      else sepJoin ((stripKeep (topSplitAux s.data 0)).map jsCleanChunk))) ∧
    (∀ s : String, cleanTsParams s = String.mk (if s.data = [] then []
      else sepJoin ((stripKeep (topSplitAux s.data 0)).map tsCleanChunk))) ∧
    cleanJsParams "a, b=f(1,2)" = "a, b" ∧
    cleanTsParams "a, b=f(1,2)" = "a, b" := by
  refine ⟨?_, ?_, by rfl, by rfl⟩
  · intro s
    show String.mk (cleanJsParamsL s.data) = _
    congr 1
    unfold cleanJsParamsL
    by_cases h : s.data = []
    · simp [h]
    · rw [if_neg h, if_neg h]
      congr 2
      rw [splitLoop_eq, consHead_nil_of_ne (topSplitAux_ne_nil _ _)]
      simp
  · intro s
    show String.mk (cleanTsParamsL s.data) = _
    congr 1
    unfold cleanTsParamsL
    by_cases h : s.data = []
    · simp [h]
    · rw [if_neg h, if_neg h]
      congr 2
      rw [splitLoop_eq, consHead_nil_of_ne (topSplitAux_ne_nil _ _)]
      simp

/-- C7 counterexample: cleaning is not idempotent as claimed; the string
",," cleans to ", ", which cleans to "", in both cleaners. -/
theorem C7_counterexample :
    cleanJsParams ",," = ", " ∧ cleanJsParams ", " = "" ∧
    cleanJsParams (cleanJsParams ",,") ≠ cleanJsParams ",," ∧
    cleanTsParams (cleanTsParams ",,") ≠ cleanTsParams ",," := by
  refine ⟨rfl, rfl, ?_, ?_⟩ <;> decide

/-- C7 witness: the amended idempotence statement applies, for instance, to
the parameter string "a=1, b". -/
theorem C7_witness :
    cleanJsParams (cleanJsParams "a=1, b") = cleanJsParams "a=1, b" ∧
    cleanTsParams (cleanTsParams "a=1, b") = cleanTsParams "a=1, b" :=
  C7_amended_idempotent "a=1, b" (by decide) (by decide) (by decide) (by decide)

/-! ## Lemmas about counting walked nodes -/

theorem bodyCount_append (p : PyStmt → Bool) (a b : List PyStmt) :
    bodyCount p (a ++ b) = bodyCount p a + bodyCount p b := by
  induction a with
  | nil => simp [bodyCount]
  | cons s rest ih => simp [bodyCount, ih]; omega

theorem stmtCount_eq (p : PyStmt → Bool) (s : PyStmt) :
    stmtCount p s = (if p s then 1 else 0) + bodyCount p s.children := by
  cases s <;> simp [stmtCount, PyStmt.children, bodyCount]

theorem stmtSize_pos (s : PyStmt) : 1 ≤ stmtSize s := by
  cases s <;> simp [stmtSize]

theorem bodySize_eq_zero {q : List PyStmt} (h : bodySize q = 0) : q = [] := by
  cases q with
  | nil => rfl
  | cons s rest =>
    exfalso
    have h1 := stmtSize_pos s
    simp [bodySize] at h
    omega

theorem walk_countP_le (p : PyStmt → Bool) :
    ∀ (n : Nat) (q : List PyStmt), bodySize q ≤ n →
    (walk q).countP p = bodyCount p q := by
  intro n
  induction n with
  | zero =>
    intro q hq
    have h0 : q = [] := bodySize_eq_zero (Nat.le_zero.mp hq)
    rw [h0, walk_nil]
    rfl
  | succ n ih =>
    intro q hq
    cases q with
    | nil => rw [walk_nil]; rfl
    | cons s rest =>
      have hsz : bodySize (rest ++ s.children) ≤ n := by
        have h1 : bodySize (s :: rest) = stmtSize s + bodySize rest := rfl
        have h2 := stmtSize_eq s
        have h3 := bodySize_append rest s.children
        omega
      rw [walk_cons, List.countP_cons, ih (rest ++ s.children) hsz,
        bodyCount_append]
      have h2 := stmtCount_eq p s
      have hb : bodyCount p (s :: rest) = stmtCount p s + bodyCount p rest := rfl
      by_cases hps : p s = true
      · simp [hps] at h2 ⊢
        omega
      · simp [hps] at h2 ⊢
        simp [h2, hb]
        omega

theorem walk_countP (p : PyStmt → Bool) (q : List PyStmt) :
    (walk q).countP p = bodyCount p q :=
  walk_countP_le p (bodySize q) q (Nat.le_refl _)

theorem pyProcess_fst (rel : String) (s : PyStmt) :
    (pyProcessNode rel s).1 = (funcRenderOf rel s).toList := by
  cases s <;> rfl

theorem pyProcess_snd (rel : String) (s : PyStmt) :
    (pyProcessNode rel s).2 = (classGroupOf rel s).getD [] := by
  cases s <;> rfl

theorem flatMap_fst_eq_filterMap (rel : String) :
    ∀ L : List PyStmt,
    (L.flatMap (fun s => (pyProcessNode rel s).1)) = L.filterMap (funcRenderOf rel) := by
  intro L
  induction L with
  | nil => rfl
  | cons s rest ih =>
    rw [List.flatMap_cons, List.filterMap_cons, ih, pyProcess_fst]
    cases funcRenderOf rel s <;> simp

theorem flatMap_snd_eq_groups (rel : String) :
    ∀ L : List PyStmt,
    (L.flatMap (fun s => (pyProcessNode rel s).2)) =
      (L.filterMap (classGroupOf rel)).flatMap id := by
  intro L
  induction L with
  | nil => rfl
  | cons s rest ih =>
    rw [List.flatMap_cons, List.filterMap_cons, ih, pyProcess_snd]
    cases classGroupOf rel s <;> simp

theorem length_filterMap_func (rel : String) :
    ∀ L : List PyStmt,
    (L.filterMap (funcRenderOf rel)).length = L.countP isFuncNode := by
  intro L
  induction L with
  | nil => rfl
  | cons s rest ih =>
    rw [List.filterMap_cons, List.countP_cons]
    cases s <;> simp [funcRenderOf, isFuncNode, ih]

theorem length_filterMap_class (rel : String) :
    ∀ L : List PyStmt,
    (L.filterMap (classGroupOf rel)).length = L.countP isClassNode := by
  intro L
  induction L with
  | nil => rfl
  | cons s rest ih =>
    rw [List.filterMap_cons, List.countP_cons]
    cases s <;> simp [classGroupOf, isClassNode, ih]

/-- C2 (corrected, amended): the tree-based extractor emits exactly one
function record per function or async-function definition and exactly one
class-line group per class definition, at any nesting depth; the records
appear in ast.walk order, which is breadth-first (level by level), not the
pre-order depth-first order the claim states. -/
theorem C2_amended_walk_order (rel : String) (m : List PyStmt) :
    (pyExtract rel m).1 = (walk m).filterMap (funcRenderOf rel) ∧
    (pyExtract rel m).1.length = bodyCount isFuncNode m ∧
    (pyExtract rel m).2 = ((walk m).filterMap (classGroupOf rel)).flatMap id ∧
    ((walk m).filterMap (classGroupOf rel)).length = bodyCount isClassNode m := by
  refine ⟨flatMap_fst_eq_filterMap rel (walk m), ?_, flatMap_snd_eq_groups rel (walk m), ?_⟩
  · show ((walk m).flatMap (fun s => (pyProcessNode rel s).1)).length = _
    rw [flatMap_fst_eq_filterMap rel (walk m), length_filterMap_func rel (walk m),
      walk_countP]
  · rw [length_filterMap_class rel (walk m), walk_countP]

/-- C2 counterexample: on a module with def a (containing nested def b)
followed by def c, the extractor's records come out in breadth-first
order a, c, b, not in the claimed pre-order a, b, c. -/
theorem preorder_nil : preorder [] = [] := by
  simp [preorder]

theorem preorder_cons (s : PyStmt) (rest : List PyStmt) :
    preorder (s :: rest) = s :: (preorder s.children ++ preorder rest) := by
  rw [preorder]

theorem C2_counterexample :
    (pyExtract "f.py" cxModule).1 =
      ["f.py:1: a() -> Unknown", "f.py:3: c() -> Unknown", "f.py:2: b() -> Unknown"] ∧
    (preorder cxModule).filterMap (funcRenderOf "f.py") =
      ["f.py:1: a() -> Unknown", "f.py:2: b() -> Unknown", "f.py:3: c() -> Unknown"] ∧
    (pyExtract "f.py" cxModule).1 ≠ (preorder cxModule).filterMap (funcRenderOf "f.py") := by
  have hw : walk cxModule =
      [PyStmt.functionDef "a" noArgsD [.functionDef "b" noArgsD [] [] none 2] [] none 1,
       PyStmt.functionDef "c" noArgsD [] [] none 3,
       PyStmt.functionDef "b" noArgsD [] [] none 2] := by
    rw [cxModule]
    rw [walk_cons]
    simp only [PyStmt.children, List.cons_append, List.nil_append]
    rw [walk_cons]
    simp only [PyStmt.children, List.cons_append, List.nil_append]
    rw [walk_cons]
    simp only [PyStmt.children, List.append_nil, List.nil_append]
    rw [walk_nil]
  have hpre : preorder cxModule =
      [PyStmt.functionDef "a" noArgsD [.functionDef "b" noArgsD [] [] none 2] [] none 1,
       PyStmt.functionDef "b" noArgsD [] [] none 2,
       PyStmt.functionDef "c" noArgsD [] [] none 3] := by
    rw [cxModule]
    rw [preorder_cons]
    simp only [PyStmt.children]
    rw [preorder_cons]
    simp only [PyStmt.children]
    rw [preorder_cons]
    simp only [PyStmt.children]
    rw [preorder_nil]
    simp
  refine ⟨?_, ?_, ?_⟩
  · show ((walk cxModule).flatMap (fun s => (pyProcessNode "f.py" s).1)) = _
    rw [hw]
    decide
  · rw [hpre]
    decide
  · show ((walk cxModule).flatMap (fun s => (pyProcessNode "f.py" s).1)) ≠ _
    rw [hw, hpre]
    decide

/-! ## Scanner lemmas for blank input -/

theorem jsLine_blank (rel : String) (i : Nat) (raw : String)
    (h : pstrip raw.data = []) : jsLine rel i raw = ([], []) := by
  simp [jsLine, h]

theorem tsLine_blank (rel : String) (i : Nat) (raw : String)
    (h : pstrip raw.data = []) : tsLine rel i raw = ([], []) := by
  simp only [tsLine, h]
  rfl

theorem scanLines_blank (f : Nat → String → List String × List String)
    (hf : ∀ i raw, pstrip raw.data = [] → f i raw = ([], [])) :
    ∀ (lines : List String) (i : Nat), (∀ l ∈ lines, pstrip l.data = []) →
    scanLines f i lines = ([], []) := by
  intro lines
  induction lines with
  | nil => intro i _; rfl
  | cons l rest ih =>
    intro i h
    have h1 : f i l = ([], []) := hf i l (h l (by simp))
    have h2 : scanLines f (i + 1) rest = ([], []) :=
      ih (i + 1) (fun x hx => h x (List.mem_cons_of_mem l hx))
    simp [scanLines, h1, h2]

/-- C3 (corrected, amended): a file that is empty or all of whose lines
strip to nothing yields two empty sequences from all three parsers, and
the Python extractor yields two empty sequences on the empty module that
the real parser produces for a comment-only file; but the JavaScript and
TypeScript scanners do not recognise comments, so a comment line whose
text matches a pattern still yields a record (see the counterexample). -/
theorem C3_amended_blank_files (content rel : String)
    (h : ∀ l ∈ contentLines content, pstrip l.data = []) :
    jsParseContent content rel = ([], []) ∧
    tsParseContent content rel = ([], []) ∧
    pyExtract rel [] = ([], []) := by
  refine ⟨?_, ?_, ?_⟩
  · exact scanLines_blank _ (jsLine_blank rel) (contentLines content) 1 h
  · exact scanLines_blank _ (tsLine_blank rel) (contentLines content) 1 h
  · unfold pyExtract
    rw [walk_nil]
    rfl

/-- C3 witness: a file of blank lines yields empty outputs everywhere. -/
theorem C3_witness :
    jsParseContent " \n\t \n" "w.js" = ([], []) ∧
    tsParseContent " \n\t \n" "w.ts" = ([], []) ∧
    pyExtract "w.py" [] = ([], []) := by
  refine ⟨(C3_amended_blank_files " \n\t \n" "w.js" (by decide)).1,
    (C3_amended_blank_files " \n\t \n" "w.ts" (by decide)).2.1,
    (C3_amended_blank_files " \n\t \n" "w.py" (by decide)).2.2⟩

/-- C3 counterexample: a comment-only file is not empty-yielding for the
regex scanners: the single comment line "// function foo(x)" produces a
function record in both. -/
theorem C3_counterexample :
    specIsCommentJs "// function foo(x)" = true ∧
    jsParseContent "// function foo(x)" "c.js" = (["c.js:1: foo(x)"], []) ∧
    tsParseContent "// function foo(x)" "c.ts" = (["c.ts:1: foo(x) -> any"], []) := by
  exact ⟨rfl, rfl, rfl⟩

/-- C1 (corrected, amended): the JavaScript and TypeScript parse_file never
propagate any failure, returning two empty lists on a read error; the
Python extract_from_file recovers only from a syntax error, and a read
failure propagates to the caller. -/
theorem C1_amended_error_policy :
    (∀ e name, jsParseFile (.err e) name = ([], [])) ∧
    (∀ e name, tsParseFile (.err e) name = ([], [])) ∧
    (∀ (content rel : String) (parse : String → Option (List PyStmt)),
      parse content = none → extractFromFile (.ok content) parse rel = .ok ([], [])) ∧
    (∀ (e rel : String) (parse : String → Option (List PyStmt)),
      extractFromFile (.err e) parse rel = .error e) := by
  refine ⟨fun e name => rfl, fun e name => rfl, ?_, fun e rel parse => rfl⟩
  intro content rel parse h
  simp only [extractFromFile]
  rw [h]

/-- C1 witness: a syntax error yields ok-empty, a read error yields empty
for the regex parsers. -/
theorem C1_witness :
    extractFromFile (.ok "def f(:") (fun _ => none) "w.py" = .ok ([], []) ∧
    jsParseFile (.err "unreadable") "w.js" = ([], []) ∧
    tsParseFile (.err "unreadable") "w.ts" = ([], []) :=
  ⟨C1_amended_error_policy.2.2.1 "def f(:" "w.py" (fun _ => none) rfl,
   C1_amended_error_policy.1 "unreadable" "w.js",
   C1_amended_error_policy.2.1 "unreadable" "w.ts"⟩

/-- C1 counterexample: an unreadable file makes extract_from_file propagate
the read error instead of returning two empty sequences, because only
SyntaxError is caught. -/
theorem C1_counterexample :
    extractFromFile (.err "unreadable") (fun _ => none) "m.py" = .error "unreadable" ∧
    extractFromFile (.err "unreadable") (fun _ => none) "m.py" ≠ .ok ([], []) := by
  refine ⟨rfl, ?_⟩
  intro h
  exact Except.noConfusion h

/-- C4 (corrected, amended): the TypeScript scanner evaluates the class
patterns for every line independently of any function match, while the
JavaScript scanner skips its class patterns on any line where a function
pattern matched, so such a line yields only the function record. -/
theorem C4_amended_class_independence :
    (∀ rel i raw, (tsLine rel i raw).2 = tsLineClasses rel i (pstrip raw.data)) ∧
    (∀ rel i raw, jsFirstFunc rel i (pstrip raw.data) ≠ none →
      (jsLine rel i raw).2 = []) := by
  refine ⟨fun rel i raw => rfl, ?_⟩
  intro rel i raw h
  by_cases hb : pstrip raw.data = []
  · simp [jsLine, hb]
  · cases hm : jsFirstFunc rel i (pstrip raw.data) with
    | none => exact absurd hm h
    | some record => simp [jsLine, hb, hm]

/-- C4 witness: concrete lines exercise both halves, in particular the line
"class Foo(x) {" where a function pattern matches. -/
theorem C4_witness :
    (tsLine "t.ts" 1 "class Foo \x7b").2 =
      tsLineClasses "t.ts" 1 (pstrip "class Foo \x7b".data) ∧
    (jsLine "f.js" 1 "class Foo(x) \x7b").2 = [] :=
  ⟨C4_amended_class_independence.1 "t.ts" 1 "class Foo \x7b",
   C4_amended_class_independence.2 "f.js" 1 "class Foo(x) \x7b" (by decide)⟩

/-- C4 counterexample: the line "class Foo(x) {" matches both a function
pattern and a class pattern of the JavaScript scanner, yet produces only a
function record and no class record. -/
theorem C4_counterexample :
    (rsearch jsF5 (pstrip "class Foo(x) \x7b".data)).isSome = true ∧
    (rsearch jsC2 (pstrip "class Foo(x) \x7b".data)).isSome = true ∧
    jsParseContent "class Foo(x) \x7b" "f.js" = (["f.js:1: Foo(x)"], []) := by
  exact ⟨rfl, rfl, rfl⟩

/-- C5: the JavaScript scanner maps the six-line default-export test input
to exactly the six expected function records, in line order, and no class
records. -/
theorem C5_js_default_exports :
    jsParseContent
      "export function foo(a,b) \x7b\x7d\nconst bar = (x, y=1) => \x7b\x7d;\nexport default function (z) \x7b\x7d\nexport default (q)=>\x7b\x7d;\nfunction qux() \x7b\x7d\nexport default qux;"
      "sample.js" =
      (["sample.js:1: foo(a, b)", "sample.js:2: bar(x, y)", "sample.js:3: <anonymous>(z)",
        "sample.js:4: <anonymous>(q)", "sample.js:5: qux()",
        "sample.js:6: export default qux"], []) := by
  rfl

/-- C8: every TypeScript function record has the form name(params) -> ret,
where ret is the literal "any" when no return annotation is captured and
the stripped captured annotation otherwise. -/
theorem C8_ts_return_type (rel : String) (i : Nat) (raw : String)
    (nm ps : String) (g3 : Option String)
    (h : tsFuncOfLine tsFuncPatterns (pstrip raw.data) = some (nm, ps, g3)) :
    (tsLine rel i raw).1 =
      [rel ++ ":" ++ Nat.repr i ++ ": " ++ nm ++ "("
        ++ (if ps = "" then ps else cleanTsParams ps) ++ ") -> " ++ tsRetOf g3] ∧
    tsRetOf none = "any" ∧
    (∀ t, g3 = some t → tsRetOf g3 = if t = "" then "any" else pstripS t) := by
  refine ⟨?_, rfl, ?_⟩
  · simp [tsLine, tsLineFuncs, h]
  · intro t ht
    rw [ht]
    rfl

/-- C8 witness: a function line without annotation renders "-> any", one
with an annotation renders the annotation. -/
theorem C8_witness :
    (tsLine "t.ts" 1 "function foo(x)").1 = ["t.ts:1: foo(x) -> any"] ∧
    (tsLine "t.ts" 2 "function bar(x): number").1 = ["t.ts:2: bar(x) -> number"] := by
  constructor
  · have h := C8_ts_return_type "t.ts" 1 "function foo(x)" "foo" "x" none rfl
    rw [h.1]
    rfl
  · have h := C8_ts_return_type "t.ts" 2 "function bar(x): number" "bar" "x"
      (some "number") rfl
    rw [h.1]
    rfl

/-! ## Lemmas about the lexicographic sort -/

theorem stringOfData {a b : String} (h : a.data = b.data) : a = b := by
  cases a
  cases b
  simp at h
  rw [h]

theorem lexLe_refl (l : List Char) : lexLe l l = true := by
  induction l with
  | nil => rfl
  | cons x xs ih => simp [lexLe, ih]

theorem lexLe_total (a : List Char) : ∀ b, lexLe a b = true ∨ lexLe b a = true := by
  induction a with
  | nil => intro b; left; rfl
  | cons x xs ih =>
    intro b
    cases b with
    | nil => right; rfl
    | cons y ys =>
      by_cases hxy : x = y
      · subst hxy
        simpa [lexLe] using ih ys
      · rcases lt_trichotomy x y with h1 | h1 | h1
        · left; simp [lexLe, hxy, h1]
        · exact absurd h1 hxy
        · right; simp [lexLe, Ne.symm hxy, h1]

theorem lexLe_antisymm : ∀ {a b : List Char},
    lexLe a b = true → lexLe b a = true → a = b := by
  intro a
  induction a with
  | nil =>
    intro b h1 h2
    cases b with
    | nil => rfl
    | cons y ys => simp [lexLe] at h2
  | cons x xs ih =>
    intro b h1 h2
    cases b with
    | nil => simp [lexLe] at h1
    | cons y ys =>
      by_cases hxy : x = y
      · subst hxy
        simp only [lexLe, if_pos rfl] at h1 h2
        rw [ih h1 h2]
      · simp only [lexLe, if_neg hxy, if_neg (Ne.symm hxy)] at h1 h2
        simp at h1 h2
        exact absurd h2 (asymm h1)

theorem lexLe_trans : ∀ {a b c : List Char},
    lexLe a b = true → lexLe b c = true → lexLe a c = true := by
  intro a
  induction a with
  | nil => intro b c _ _; rfl
  | cons x xs ih =>
    intro b c h1 h2
    cases b with
    | nil => simp [lexLe] at h1
    | cons y ys =>
      cases c with
      | nil => simp [lexLe] at h2
      | cons z zs =>
        by_cases hxy : x = y
        · subst hxy
          simp only [lexLe, if_pos rfl] at h1
          by_cases hyz : x = z
          · subst hyz
            simp only [lexLe, if_pos rfl] at h2 ⊢
            exact ih h1 h2
          · simp only [lexLe, if_neg hyz] at h2 ⊢
            exact h2
        · simp only [lexLe, if_neg hxy] at h1
          simp at h1
          by_cases hyz : y = z
          · subst hyz
            simp [lexLe, hxy, h1]
          · simp only [lexLe, if_neg hyz] at h2
            simp at h2
            have h3 : x < z := lt_trans h1 h2
            simp [lexLe, ne_of_lt h3, h3]

theorem pairLe_total (a b : String × String) :
    pairLe a b = true ∨ pairLe b a = true := by
  unfold pairLe
  by_cases h : a.1 = b.1
  · rw [if_pos h, if_pos h.symm]
    exact lexLe_total a.2.data b.2.data
  · rw [if_neg h, if_neg (fun he => h he.symm)]
    exact lexLe_total a.1.data b.1.data

theorem pairLe_trans {a b c : String × String}
    (h1 : pairLe a b = true) (h2 : pairLe b c = true) : pairLe a c = true := by
  unfold pairLe at h1 h2 ⊢
  by_cases hab : a.1 = b.1
  · by_cases hbc : b.1 = c.1
    · have hac : a.1 = c.1 := hab.trans hbc
      rw [if_pos hab] at h1
      rw [if_pos hbc] at h2
      rw [if_pos hac]
      exact lexLe_trans h1 h2
    · have hac : a.1 ≠ c.1 := fun he => hbc (hab.symm.trans he)
      rw [if_neg hbc] at h2
      rw [if_neg hac, hab]
      exact h2
  · by_cases hbc : b.1 = c.1
    · have hac : a.1 ≠ c.1 := fun he => hab (he.trans hbc.symm)
      rw [if_neg hab] at h1
      rw [if_neg hac, ← hbc]
      exact h1
    · rw [if_neg hab] at h1
      rw [if_neg hbc] at h2
      have h3 : lexLe a.1.data c.1.data = true := lexLe_trans h1 h2
      by_cases hac : a.1 = c.1
      · exfalso
        rw [← hac] at h2
        have h5 : a.1.data = b.1.data := lexLe_antisymm h1 h2
        exact hab (stringOfData h5)
      · rw [if_neg hac]
        exact h3

theorem mem_insertPair {x z : String × String} :
    ∀ {l : List (String × String)}, z ∈ insertPair x l → z = x ∨ z ∈ l := by
  intro l
  induction l with
  | nil => intro h; simp [insertPair] at h; exact Or.inl h
  | cons y ys ih =>
    intro h
    by_cases hxy : pairLe x y = true
    · simp only [insertPair, if_pos hxy] at h
      rcases List.mem_cons.mp h with h1 | h2
      · exact Or.inl h1
      · exact Or.inr h2
    · simp only [insertPair, if_neg hxy] at h
      rcases List.mem_cons.mp h with h1 | h2
      · exact Or.inr (h1 ▸ List.mem_cons_self y ys)
      · rcases ih h2 with h3 | h4
        · exact Or.inl h3
        · exact Or.inr (List.mem_cons_of_mem y h4)

theorem pairwise_insertPair (x : String × String) :
    ∀ {l : List (String × String)},
    List.Pairwise (fun a b => pairLe a b = true) l →
    List.Pairwise (fun a b => pairLe a b = true) (insertPair x l) := by
  intro l
  induction l with
  | nil => intro _; simp [insertPair]
  | cons y ys ih =>
    intro h
    rcases List.pairwise_cons.mp h with ⟨hy, hys⟩
    by_cases hxy : pairLe x y = true
    · simp only [insertPair, if_pos hxy]
      refine List.Pairwise.cons ?_ h
      intro z hz
      rcases List.mem_cons.mp hz with h1 | h2
      · rw [h1]; exact hxy
      · exact pairLe_trans hxy (hy z h2)
    · simp only [insertPair, if_neg hxy]
      have hyx : pairLe y x = true := by
        rcases pairLe_total x y with h1 | h1
        · exact absurd h1 hxy
        · exact h1
      refine List.Pairwise.cons ?_ (ih hys)
      intro z hz
      rcases mem_insertPair hz with h1 | h2
      · rw [h1]; exact hyx
      · exact hy z h2

theorem sortPairs_sorted (l : List (String × String)) :
    List.Pairwise (fun a b => pairLe a b = true) (sortPairs l) := by
  induction l with
  | nil => simp [sortPairs]
  | cons x rest ih =>
    show List.Pairwise _ (insertPair x (sortPairs rest))
    exact pairwise_insertPair x ih

theorem pairLe_name_le {a b : String × String} (h : pairLe a b = true) :
    lexLe a.1.data b.1.data = true := by
  unfold pairLe at h
  by_cases hab : a.1 = b.1
  · rw [hab]
    exact lexLe_refl b.1.data
  · rw [if_neg hab] at h
    exact h

theorem sortPairs_names_sorted (l : List (String × String)) :
    List.Pairwise (fun a b => lexLe a.1.data b.1.data = true) (sortPairs l) :=
  (sortPairs_sorted l).imp pairLe_name_le

/-- C9: attributes with no discoverable type are recorded with type
"Unknown"; the class_attrs and instance_attrs summary lines list their
entries sorted by name, and the properties line lists its entries in
declaration order, exactly as collected. -/
theorem C9_attr_unknown_and_order :
    (∀ tgts, typeOfAssign (.assign tgts none) = "Unknown") ∧
    (∀ tgts, typeOfAssign (.assign tgts (some "")) = "Unknown") ∧
    (∀ body, List.Pairwise (fun p q => lexLe p.1.data q.1.data = true)
      (sortPairs (collectClassAttrs body))) ∧
    (∀ body, List.Pairwise (fun p q => lexLe p.1.data q.1.data = true)
      (sortPairs (collectInstanceAttrs body))) ∧
    (∀ rel ln nm bases body, classLinesOf rel ln nm bases body =
      [classHeader rel ln nm bases]
      ++ (if collectClassAttrs body = [] then [] else
          [bullet ++ "class_attrs: " ++ renderPairs (sortPairs (collectClassAttrs body))])
      ++ (if collectInstanceAttrs body = [] then [] else
          [bullet ++ "instance_attrs: "
            ++ renderPairs (sortPairs (collectInstanceAttrs body))])
      ++ (if collectProperties body = [] then [] else
          [bullet ++ "properties: " ++ renderPairs (collectProperties body)])) := by
  refine ⟨fun tgts => rfl, fun tgts => rfl,
    fun body => sortPairs_names_sorted _,
    fun body => sortPairs_names_sorted _,
    fun rel ln nm bases body => rfl⟩

/-- C10: the rendered Python parameter list consists of exactly the
positional-or-keyword parameters, then *vararg, then **kwarg; the
positional-only and keyword-only parameter lists never influence the
rendering, and the same holds for the whole function record. -/
theorem C10_paramlist_omits_kwonly_posonly (po aa ko : List PyArg)
    (va kw : Option String) :
    renderArgList ⟨po, aa, va, ko, kw⟩ = renderArgList ⟨[], aa, va, [], kw⟩ ∧
    renderArgList ⟨po, aa, va, ko, kw⟩ =
      aa.map renderArg
        ++ (match va with | some v => ["*" ++ v] | none => [])
        ++ (match kw with | some k => ["**" ++ k] | none => []) ∧
    (∀ rel ln nm ret, renderFunc rel ln nm ⟨po, aa, va, ko, kw⟩ ret =
      renderFunc rel ln nm ⟨[], aa, va, [], kw⟩ ret) := by
  exact ⟨rfl, rfl, fun rel ln nm ret => rfl⟩

end ContextBuilder
